import Mathlib

/-!
# searchquery: tokenizer, parser, in-memory evaluator and dialect serializers

A shallow embedding of `include/searchquery/base.hxx`, `dialect/postgres.hxx` and
`dialect/sqlite.hxx`.

Conventions of the embedding:

* `std::string` is a `List Char`; each `Char` stands for one `char` of the string.
* `std::string::at` and `std::string::substr` return `Option`: `none` is the
  `std::out_of_range` exception.
* the `while` loops that walk an index through the input carry a fuel argument and
  return `none` when it runs out; the theorems show that this never happens.
* `std::vector` used as a stack (`push_back` / `back` / `pop_back`) is a `List` whose
  head is the back of the vector.
* the out-parameter `std::string& err` is passed in and returned.
-/

namespace searchquery

/-- A `std::string`, one `Char` per `char`. -/
abbrev str := List Char

inductive token_type where
  | TOKEN_TERM
  | TOKEN_AND
  | TOKEN_OR
  | TOKEN_LPAREN
  | TOKEN_RPAREN
  | TOKEN_EOF
  deriving DecidableEq, Repr

structure token_t where
  type : token_type
  value : str
  deriving DecidableEq, Repr

/-- The tree `node_t`: `NODE_TERM` carries `phrase`, `NODE_AND` and `NODE_OR` carry
`left` and `right` (the only three shapes `parse_expression` builds). -/
inductive node_t where
  | NODE_TERM (phrase : str)
  | NODE_AND (left right : node_t)
  | NODE_OR (left right : node_t)
  deriving DecidableEq, Repr

open token_type node_t

/-- `std::isspace` in the "C" locale: space, `\t`, `\n`, `\v`, `\f`, `\r`. -/
def isspace (c : Char) : Bool :=
  c.toNat = 32 || (9 ≤ c.toNat && c.toNat ≤ 13)

/-- `std::tolower` in the "C" locale: `A`..`Z` go to `a`..`z`, every other value is kept. -/
def tolower (c : Char) : Char :=
  if 65 ≤ c.toNat ∧ c.toNat ≤ 90 then Char.ofNat (c.toNat + 32) else c

/-- The `std::transform(..., tolower)` idiom: lowercase every `char` of a string. -/
def to_lower (s : str) : str := s.map tolower

/-- `s.at(i)`; `none` when `i` is out of range. -/
def str_at (s : str) (i : Nat) : Option Char := s.get? i

/-- `s.substr(pos, n)`; `none` when `pos > s.size()`. -/
def substr (s : str) (pos n : Nat) : Option str :=
  if pos ≤ s.length then some ((s.drop pos).take n) else none

/-- `s.substr(pos)`; `none` when `pos > s.size()`. -/
def substr_from (s : str) (pos : Nat) : Option str :=
  if pos ≤ s.length then some (s.drop pos) else none

/-- `content.find(needle)`: position of the first occurrence, `none` for `npos`. -/
def str_find : str → str → Option Nat
  | [], needle => if needle.isEmpty then some 0 else none
  | c :: cs, needle =>
    if needle.isPrefixOf (c :: cs) then some 0
    else (str_find cs needle).map (· + 1)

/-- `if (apply_lookup) term = apply_lookup(term);` -/
def lookup_term (apply_lookup : Option (str → str)) (term : str) : str :=
  match apply_lookup with
  | some f => f term
  | none => term

/-- `if (!term.empty()) tokens.push_back({TOKEN_TERM, term});` -/
def push_term (tokens : List token_t) (term : str) : List token_t :=
  if term.isEmpty then tokens else tokens ++ [⟨TOKEN_TERM, term⟩]

/-- The scanning loop `while (i < input.size() && cond(input.at(i))) i++;`: the value of
`i` when the loop ends. -/
def scan_while (cond : Char → Bool) (input : str) : Nat → Nat → Option Nat
  | 0, _ => none
  | fuel + 1, i =>
    if i < input.length then
      match str_at input i with
      | none => none
      | some c => if cond c then scan_while cond input fuel (i + 1) else some i
    else some i

/-- The keyword test
`input.substr(i, n) == kw && (i + n == input.size() || isspace(input.at(i + n)) ||
 input.at(i + n) == '(' || input.at(i + n) == ')')` with `n = kw.size()`. -/
def keyword_at (kw input : str) (i : Nat) : Option Bool :=
  match substr input i kw.length with
  | none => none
  | some s =>
    if s = kw then
      if i + kw.length = input.length then some true
      else
        match str_at input (i + kw.length) with
        | none => none
        | some c => some (isspace c || c == '(' || c == ')')
    else some false

/-- Loop condition of the unquoted-term scan. -/
def term_char (c : Char) : Bool := !isspace c && c != '(' && c != ')'

/-- Loop condition of the quoted-phrase scan. -/
def not_quote (c : Char) : Bool := c != '"'

/-- The main loop of `tokenize_input`, from index `i` with the tokens pushed so far. -/
def tokenize_loop (input : str) (apply_lookup : Option (str → str)) :
    Nat → Nat → List token_t → Option (List token_t)
  | 0, _, _ => none
  | fuel + 1, i, tokens =>
    if i < input.length then
      match str_at input i with
      | none => none
      | some c =>
        if isspace c then tokenize_loop input apply_lookup fuel (i + 1) tokens
        else if c = '(' then
          tokenize_loop input apply_lookup fuel (i + 1) (tokens ++ [⟨TOKEN_LPAREN, []⟩])
        else if c = ')' then
          tokenize_loop input apply_lookup fuel (i + 1) (tokens ++ [⟨TOKEN_RPAREN, []⟩])
        else
          match keyword_at "AND".data input i with
          | none => none
          | some true =>
            tokenize_loop input apply_lookup fuel (i + 3) (tokens ++ [⟨TOKEN_AND, []⟩])
          | some false =>
            match keyword_at "OR".data input i with
            | none => none
            | some true =>
              tokenize_loop input apply_lookup fuel (i + 2) (tokens ++ [⟨TOKEN_OR, "OR".data⟩])
            | some false =>
              if c = '"' then
                match scan_while not_quote input (input.length + 1) (i + 1) with
                | none => none
                | some j =>
                  if j ≥ input.length then
                    match substr_from input (i + 1) with
                    | none => none
                    | some term =>
                      tokenize_loop input apply_lookup fuel input.length
                        (push_term tokens (lookup_term apply_lookup term))
                  else
                    match substr input (i + 1) (j - (i + 1)) with
                    | none => none
                    | some term =>
                      tokenize_loop input apply_lookup fuel (j + 1)
                        (push_term tokens (lookup_term apply_lookup term))
              else
                match scan_while term_char input (input.length + 1) i with
                | none => none
                | some j =>
                  match substr input i (j - i) with
                  | none => none
                  | some term =>
                    tokenize_loop input apply_lookup fuel j
                      (if term.isEmpty then tokens
                       else push_term tokens (lookup_term apply_lookup term))
    else some (tokens ++ [⟨TOKEN_EOF, []⟩])

/-- `tokenize_input(input, apply_lookup)`. Every iteration of the main loop advances `i`,
so `input.size() + 1` iterations are enough. -/
def tokenize_input (input : str) (apply_lookup : Option (str → str)) :
    Option (List token_t) :=
  tokenize_loop input apply_lookup (input.length + 1) 0 []

/-- The lambda `apply_op`: `none` where it sets `err = "invalid expression"` and returns
`false`; otherwise the two stacks after the operator on top of `op_stack` has been
applied to the two topmost operands. -/
def apply_op (stack : List node_t) (op_stack : List token_t) :
    Option (List node_t × List token_t) :=
  match stack, op_stack with
  | right :: left :: rest, op :: ops =>
    some ((if op.type = TOKEN_AND then NODE_AND left right else NODE_OR left right) :: rest, ops)
  | _, _ => none

/-- The `TOKEN_RPAREN` branch: apply operators down to the nearest `TOKEN_LPAREN` and pop
it. `apply_op` pops exactly the top of `op_stack`, so the loop continues on `ops`. -/
def close_paren : List node_t → List token_t → Except str (List node_t × List token_t)
  | _, [] => .error "mismatched parentheses".data
  | stack, top :: ops =>
    if top.type = TOKEN_LPAREN then .ok (stack, ops)
    else
      match apply_op stack (top :: ops) with
      | none => .error "invalid expression".data
      | some (stack1, _) => close_paren stack1 ops

/-- The precedence test of the `TOKEN_AND` / `TOKEN_OR` branch. -/
def binds_first (token top : token_t) : Bool :=
  (token.type = TOKEN_OR && top.type = TOKEN_AND) ||
  (token.type = TOKEN_AND && top.type = TOKEN_AND) ||
  (token.type = TOKEN_OR && top.type = TOKEN_OR)

/-- The `while (!op_stack.empty())` loop of the `TOKEN_AND` / `TOKEN_OR` branch (the push
of `token` that follows it is done by the caller). -/
def precedence_loop (token : token_t) :
    List node_t → List token_t → Except str (List node_t × List token_t)
  | stack, [] => .ok (stack, [])
  | stack, top :: ops =>
    if top.type = TOKEN_LPAREN then .ok (stack, top :: ops)
    else if binds_first token top then
      match apply_op stack (top :: ops) with
      | none => .error "invalid expression".data
      | some (stack1, _) => precedence_loop token stack1 ops
    else .ok (stack, top :: ops)

/-- The token loop `while (current < tokens.size())` of `parse_expression`. -/
def parse_loop : List token_t → List node_t → List token_t →
    Except str (List node_t × List token_t)
  | [], stack, op_stack => .ok (stack, op_stack)
  | token :: rest, stack, op_stack =>
    match token.type with
    | TOKEN_EOF => .ok (stack, op_stack)
    | TOKEN_TERM => parse_loop rest (NODE_TERM token.value :: stack) op_stack
    | TOKEN_LPAREN => parse_loop rest stack (token :: op_stack)
    | TOKEN_RPAREN =>
      match close_paren stack op_stack with
      | .error e => .error e
      | .ok (stack1, ops1) => parse_loop rest stack1 ops1
    | _ =>
      match precedence_loop token stack op_stack with
      | .error e => .error e
      | .ok (stack1, ops1) => parse_loop rest stack1 (token :: ops1)

/-- The loop "Apply remaining operators". -/
def apply_remaining : List node_t → List token_t → Except str (List node_t)
  | stack, [] => .ok stack
  | stack, top :: ops =>
    if top.type = TOKEN_LPAREN then .error "mismatched parentheses".data
    else
      match apply_op stack (top :: ops) with
      | none => .error "invalid expression".data
      | some (stack1, _) => apply_remaining stack1 ops

/-- The loop "Implicit AND for multiple terms" on a non-empty operand vector
`left :: others` (front first): while a second element exists, the first two are replaced
by their `NODE_AND`. -/
def implicit_and (left : node_t) : List node_t → node_t
  | [] => left
  | right :: rest => implicit_and (NODE_AND left right) rest

/-- The part of `parse_expression` after the token loop; `stack.reverse` is the operand
vector front first. -/
def finish_parse (stack : List node_t) (op_stack : List token_t) : Except str node_t :=
  match apply_remaining stack op_stack with
  | .error e => .error e
  | .ok stack1 =>
    match stack1.reverse with
    | [] => .error "invalid expression".data
    | first :: others => .ok (implicit_and first others)

/-- The whole of `parse_expression` with the error as a value. -/
def parse_run (tokens : List token_t) : Except str node_t :=
  match parse_loop tokens [] [] with
  | .error e => .error e
  | .ok (stack, op_stack) => finish_parse stack op_stack

/-- `parse_expression(tokens, err)`: the returned `std::optional<node_t>` and the value of
`err` afterwards (written only on failure). -/
def parse_expression (tokens : List token_t) (err : str) : Option node_t × str :=
  match parse_run tokens with
  | .error e => (none, e)
  | .ok node => (some node, err)

/-- `eval(node, content)`. -/
def eval : node_t → str → Bool
  | NODE_TERM phrase, content => (str_find content (to_lower phrase)).isSome
  | NODE_AND left right, content => eval left content && eval right content
  | NODE_OR left right, content => eval left content || eval right content

/-- `match_expression(content, query, err, apply_lookup)`: the returned `bool` and the
value of `err` afterwards. -/
def match_expression (content query err : str) (apply_lookup : Option (str → str)) :
    Option (Bool × str) :=
  if query.isEmpty then some (true, err)
  else
    match tokenize_input query apply_lookup with
    | none => none
    | some tokens =>
      if tokens.length ≤ 1 then some (true, err)
      else
        match parse_expression tokens err with
        | (none, err1) => some (false, err1)
        | (some node, err1) => some (eval node (to_lower content), err1)

/-- The keyword test of `keyword_at` read on the unread remainder `s` of the input. -/
def is_keyword (kw s : str) : Bool :=
  s.take kw.length == kw &&
    (match s.drop kw.length with
     | [] => true
     | c :: _ => isspace c || c == '(' || c == ')')

/-- List view of `tokenize_loop`: the tokens the loop pushes from the point where the
unread remainder of the input is the given list. `tokenize_loop_spec` shows that the loop computes
exactly this. -/
def lex (f : Option (str → str)) : str → List token_t
  | [] => [⟨TOKEN_EOF, []⟩]
  | c :: cs =>
    if isspace c then lex f cs
    else if c = '(' then ⟨TOKEN_LPAREN, []⟩ :: lex f cs
    else if c = ')' then ⟨TOKEN_RPAREN, []⟩ :: lex f cs
    else if is_keyword "AND".data (c :: cs) then ⟨TOKEN_AND, []⟩ :: lex f (cs.drop 2)
    else if is_keyword "OR".data (c :: cs) then ⟨TOKEN_OR, "OR".data⟩ :: lex f (cs.drop 1)
    else if c = '"' then
      push_term [] (lookup_term f (cs.takeWhile not_quote)) ++
        lex f ((cs.dropWhile not_quote).drop 1)
    else
      push_term [] (lookup_term f (c :: cs.takeWhile term_char)) ++
        lex f (cs.dropWhile term_char)
termination_by s => s.length
decreasing_by
  all_goals simp_wf
  · omega
  · omega
  · have := (List.dropWhile_sublist (l := cs) not_quote).length_le
    omega
  · have := (List.dropWhile_sublist (l := cs) term_char).length_le
    omega

/-- A plain term of the query language: non-empty, without whitespace, parenthesis or
double quote, and not one of the keywords `AND`, `OR`. -/
def plain_term (t : str) : Bool :=
  !t.isEmpty && t.all (fun c => !isspace c && c != '(' && c != ')' && c != '"') &&
    t != "AND".data && t != "OR".data

/-- The remainder of the input is empty or starts with whitespace or a parenthesis: an
unquoted term or a keyword ends here. -/
def sep_start (rest : str) : Bool :=
  match rest with
  | [] => true
  | c :: _ => !term_char c

/-- The strings of a list written one after the other with `sep` between neighbours. -/
def join_with (sep : str) : List str → str
  | [] => []
  | [t] => t
  | t :: rest => t ++ sep ++ join_with sep rest

/-- Number of `TOKEN_LPAREN` tokens in a token list. -/
def lparens (ts : List token_t) : Nat := ts.countP (fun t => t.type = TOKEN_LPAREN)

/-- Number of `TOKEN_RPAREN` tokens in a token list. -/
def rparens (ts : List token_t) : Nat := ts.countP (fun t => t.type = TOKEN_RPAREN)

/-- The parenthesis tokens of `ts` do not form a balanced bracket sequence: some prefix
has more `TOKEN_RPAREN` than `TOKEN_LPAREN`, or the totals differ. -/
def unbalanced (ts : List token_t) : Prop :=
  (∃ k, lparens (ts.take k) < rparens (ts.take k)) ∨ lparens ts ≠ rparens ts

/-- The two messages `parse_expression` writes to `err`. -/
def is_parse_error (e : str) : Prop :=
  e = "mismatched parentheses".data ∨ e = "invalid expression".data

/-- `TOKEN_EOF` occurs at most as the last token of the sequence. -/
def eof_only_last (ts : List token_t) : Prop :=
  ∀ t ∈ ts.dropLast, t.type ≠ TOKEN_EOF

/-- The phrases of the leaves of a tree, read left to right. -/
def leaves : node_t → List str
  | NODE_TERM phrase => [phrase]
  | NODE_AND left right => leaves left ++ leaves right
  | NODE_OR left right => leaves left ++ leaves right

/-- The leaves of an operand vector given front first. -/
def front_leaves : List node_t → List str
  | [] => []
  | n :: rest => leaves n ++ front_leaves rest

/-- The leaves of an operand stack (head = back of the vector), read from the front of
the vector to its back. -/
def stack_leaves : List node_t → List str
  | [] => []
  | n :: st => stack_leaves st ++ leaves n

/-- The values of the `TOKEN_TERM` tokens that come before the first `TOKEN_EOF`. -/
def term_values : List token_t → List str
  | [] => []
  | t :: rest =>
    match t.type with
    | TOKEN_EOF => []
    | TOKEN_TERM => t.value :: term_values rest
    | _ => term_values rest

/-! ## Dialect serializers (`dialect/postgres.hxx`, `dialect/sqlite.hxx`) -/

/-- The single quote character. -/
def squote : Char := Char.ofNat 39

/-- The test `(c >= 'a' && c <= 'z') || (c >= 'A' && c <= 'Z') || (c >= '0' && c <= '9')
|| c == '_'` of `escape_tsquery_term`. -/
def is_word_char (c : Char) : Bool :=
  (97 ≤ c.toNat && c.toNat ≤ 122) || (65 ≤ c.toNat && c.toNat ≤ 90) ||
    (48 ≤ c.toNat && c.toNat ≤ 57) || c = '_'

/-- "Remove quotes if present":
`if (!term.empty() && term.front() == '"' && term.back() == '"')
   term = term.substr(1, term.size() - 2);`
The count `term.size() - 2` is computed in `size_t` (64 bits), and `substr` cannot throw
because its position 1 is at most `term.size()`. -/
def remove_quotes (term : str) : str :=
  if term ≠ [] ∧ term.head? = some '"' ∧ term.getLast? = some '"' then
    (term.drop 1).take ((term.length + 2 ^ 64 - 2) % 2 ^ 64)
  else term

/-- `dialect::postgres::escape_tsquery_term(term)`. -/
def escape_tsquery_term (term : str) : str :=
  let term1 := remove_quotes term
  let escaped := term1.foldl
    (fun acc c => if c = squote then acc ++ [squote, squote] else acc ++ [c]) []
  if escaped.any (fun c => !is_word_char c) then [squote] ++ escaped ++ [squote]
  else escaped

/-- The loop `for (char c : node.phrase)` of `node_to_tsquery` with the flush of the last
word that follows it: the vector `words` at the end. -/
def tsquery_words : List Char → str → List str → List str
  | [], word, words => if word ≠ [] then words ++ [word] else words
  | c :: cs, word, words =>
    if isspace c then
      if word ≠ [] then tsquery_words cs [] (words ++ [word])
      else tsquery_words cs word words
    else tsquery_words cs (word ++ [c]) words

/-- The loop `for (size_t i = 0; i < words.size(); i++)` of `node_to_tsquery`, from index
`i` on the words not yet visited. -/
def tsquery_join : List str → Nat → str → str
  | [], _, result => result
  | w :: ws, i, result =>
    tsquery_join ws (i + 1)
      ((if i > 0 then result ++ " <-> ".data else result) ++ escape_tsquery_term w)

/-- `dialect::postgres::node_to_tsquery(node)`. -/
def node_to_tsquery : node_t → str
  | NODE_TERM phrase =>
    if phrase.contains ' ' then tsquery_join (tsquery_words phrase [] []) 0 []
    else escape_tsquery_term phrase
  | NODE_AND left right =>
    "(".data ++ node_to_tsquery left ++ " & ".data ++ node_to_tsquery right ++ ")".data
  | NODE_OR left right =>
    "(".data ++ node_to_tsquery left ++ " | ".data ++ node_to_tsquery right ++ ")".data

/-- `dialect::postgres::to_tsquery(query, apply_lookup)`. -/
def to_tsquery (query : str) (apply_lookup : Option (str → str)) : Option str :=
  if query.isEmpty then some []
  else
    match tokenize_input query apply_lookup with
    | none => none
    | some tokens =>
      if tokens.length ≤ 1 then some []
      else
        match parse_expression tokens [] with
        | (none, _) => some []
        | (some node, _) => some (node_to_tsquery node)

/-- `dialect::sqlite::escape_fts5_term(term)`. -/
def escape_fts5_term (term : str) : str :=
  let term1 := remove_quotes term
  if term1.any (fun c => c = '"' || c = '*') then
    ['"'] ++ term1.foldl (fun acc c => if c = '"' then acc ++ ['"', '"'] else acc ++ [c]) []
      ++ ['"']
  else term1

/-- `dialect::sqlite::node_to_fts5_query(node)`. -/
def node_to_fts5_query : node_t → str
  | NODE_TERM phrase =>
    if phrase.contains ' ' then ['"'] ++ remove_quotes phrase ++ ['"']
    else escape_fts5_term phrase
  | NODE_AND left right =>
    node_to_fts5_query left ++ " AND ".data ++ node_to_fts5_query right
  | NODE_OR left right =>
    node_to_fts5_query left ++ " OR ".data ++ node_to_fts5_query right

/-- `dialect::sqlite::to_fts5_query(query, apply_lookup)`. -/
def to_fts5_query (query : str) (apply_lookup : Option (str → str)) : Option str :=
  if query.isEmpty then some []
  else
    match tokenize_input query apply_lookup with
    | none => none
    | some tokens =>
      if tokens.length ≤ 1 then some []
      else
        match parse_expression tokens [] with
        | (none, _) => some []
        | (some node, _) => some (node_to_fts5_query node)

/-- A term made only of characters `[A-Za-z0-9_]`: non-empty and not one of the keywords
`AND`, `OR`. -/
def word_term (t : str) : Bool :=
  !t.isEmpty && t.all is_word_char && t != "AND".data && t != "OR".data

/-- The words of a phrase as the specification describes them: the pieces between
whitespace characters, empty pieces discarded, order preserved. -/
def spec_words (phrase : str) : List str :=
  (phrase.splitOnP isspace).filter (fun w => decide (w ≠ []))

/-- A word of a phrase: non-empty, over `[A-Za-z0-9_]`. -/
def phrase_word (w : str) : Bool := !w.isEmpty && w.all is_word_char

/-- A string with one layer of surrounding double quotes removed when it begins and ends
with a double quote, as the specification describes it. -/
def strip_layer (w : str) : str :=
  if w.head? = some '"' ∧ w.getLast? = some '"' then (w.drop 1).dropLast else w

/-- A string with every occurrence of the character `q` doubled, as the specification
describes it. -/
def double_char (q : Char) : str → str
  | [] => []
  | c :: cs => (if c = q then [q, q] else [c]) ++ double_char q cs

/-- An item of a query of adjacent items: an unquoted term, or a phrase written between
double quotes. -/
inductive fts_item where
  | plain (t : str)
  | phrase (p : str)

/-- The item as it is written in the query. -/
def item_text : fts_item → str
  | .plain t => t
  | .phrase p => '"' :: (p ++ ['"'])

/-- The text the item denotes: the term, or the phrase without its quotes. -/
def item_value : fts_item → str
  | .plain t => t
  | .phrase p => p

/-- The items of claim C16: a plain term without `*`, or a phrase with at least one space
and no double quote. -/
def item_ok : fts_item → Bool
  | .plain t => plain_term t && !t.contains '*'
  | .phrase p => p.contains ' ' && !p.contains '"'

/-- The fully parenthesised token sequence of a tree: a term is its `TOKEN_TERM`, a
binary node is `(`, the tokens of the left child, the operator, the tokens of the right
child, `)`. The tokens carry the values the tokenizer gives them. -/
def toks : node_t → List token_t
  | NODE_TERM p => [⟨TOKEN_TERM, p⟩]
  | NODE_AND l r =>
    [⟨TOKEN_LPAREN, []⟩] ++ toks l ++ [⟨TOKEN_AND, []⟩] ++ toks r ++ [⟨TOKEN_RPAREN, []⟩]
  | NODE_OR l r =>
    [⟨TOKEN_LPAREN, []⟩] ++ toks l ++ [⟨TOKEN_OR, "OR".data⟩] ++ toks r ++ [⟨TOKEN_RPAREN, []⟩]

/-- The tokens that follow the first term in a chain `t1 op t2 op ... op tn`. -/
def chain_tokens (op : token_t) : List str → List token_t
  | [] => []
  | u :: us => op :: ⟨TOKEN_TERM, u⟩ :: chain_tokens op us

/-- The token loop of `parse_expression` resumed from given stacks, followed by its final
phase. -/
def parse_from (tokens : List token_t) (stack : List node_t) (ops : List token_t) :
    Except str node_t :=
  match parse_loop tokens stack ops with
  | .error e => .error e
  | .ok (stack1, ops1) => finish_parse stack1 ops1

/-- What the tokenizer, used without rewrite function, guarantees of the text of a
`TOKEN_TERM`: it is not empty, does not start with a double quote, and either has no
double quote at all (quoted phrase) or has no whitespace and no parenthesis (unquoted
term). -/
def term_text_ok (v : str) : Prop :=
  v ≠ [] ∧ v.head? ≠ some '"' ∧ ('"' ∉ v ∨ ∀ c ∈ v, term_char c = true)

/-! ## The tokenizer loop computes its list view -/

theorem str_at_drop (input : str) (i : Nat) : str_at input i = (input.drop i).head? := by
  simp [str_at, List.head?_drop]

theorem scan_while_spec (cond : Char → Bool) (input : str) :
    ∀ (fuel i : Nat), i ≤ input.length → input.length - i < fuel →
      scan_while cond input fuel i = some (i + ((input.drop i).takeWhile cond).length) := by
  intro fuel
  induction fuel with
  | zero => intro i _ h; omega
  | succ n ih =>
    intro i hi hf
    unfold scan_while
    by_cases hlt : i < input.length
    · have hd : input.drop i = input[i] :: input.drop (i + 1) := List.drop_eq_getElem_cons hlt
      rw [if_pos hlt, str_at_drop, hd]
      simp only [List.head?_cons]
      by_cases hc : cond input[i] = true
      · rw [if_pos hc, ih (i + 1) (by omega) (by omega), List.takeWhile_cons, if_pos hc]
        simp only [List.length_cons]
        congr 1
        omega
      · rw [if_neg hc, List.takeWhile_cons, if_neg hc]
        simp
    · have hi2 : input.length ≤ i := by omega
      rw [if_neg hlt, List.drop_eq_nil_of_le hi2]
      simp

theorem keyword_at_spec (kw input : str) (i : Nat) (hi : i ≤ input.length) :
    keyword_at kw input i = some (is_keyword kw (input.drop i)) := by
  unfold keyword_at is_keyword substr
  rw [if_pos hi]
  simp only
  by_cases hk : (input.drop i).take kw.length = kw
  · have hlen : kw.length ≤ input.length - i := by
      have h1 := congrArg List.length hk
      simp only [List.length_take, List.length_drop] at h1
      omega
    rw [if_pos hk]
    by_cases he : i + kw.length = input.length
    · rw [if_pos he]
      have : (input.drop i).drop kw.length = [] := by
        rw [List.drop_drop]
        apply List.drop_eq_nil_of_le
        omega
      rw [this]
      simp [hk]
    · rw [if_neg he, str_at_drop]
      have hlt : i + kw.length < input.length := by omega
      have hd : (input.drop i).drop kw.length
          = input[i + kw.length] :: input.drop (i + kw.length + 1) := by
        rw [List.drop_drop]
        have := List.drop_eq_getElem_cons hlt
        simp [Nat.add_comm] at this ⊢
      have hd2 : input.drop (i + kw.length)
          = input[i + kw.length] :: input.drop (i + kw.length + 1) :=
        List.drop_eq_getElem_cons hlt
      rw [hd, hd2]
      simp [hk, List.getElem?_eq_getElem hlt]
  · rw [if_neg hk]
    simp [hk]

theorem take_length_takeWhile (p : Char → Bool) (l : str) :
    l.take (l.takeWhile p).length = l.takeWhile p := by
  induction l with
  | nil => simp
  | cons a t ih =>
    by_cases h : p a = true
    · simp [List.takeWhile_cons, h, ih]
    · simp [List.takeWhile_cons, h]

theorem drop_length_takeWhile (p : Char → Bool) (l : str) :
    l.drop (l.takeWhile p).length = l.dropWhile p := by
  induction l with
  | nil => simp
  | cons a t ih =>
    by_cases h : p a = true
    · simp [List.takeWhile_cons, List.dropWhile_cons, h, ih]
    · simp [List.takeWhile_cons, List.dropWhile_cons, h]

theorem length_takeWhile_le (p : Char → Bool) (l : str) :
    (l.takeWhile p).length ≤ l.length :=
  (List.takeWhile_sublist p).length_le

theorem is_keyword_length (kw s : str) (h : is_keyword kw s = true) : kw.length ≤ s.length := by
  unfold is_keyword at h
  simp only [Bool.and_eq_true, beq_iff_eq] at h
  have h1 := congrArg List.length h.1
  simp only [List.length_take] at h1
  omega

theorem push_term_append (acc : List token_t) (t : str) :
    push_term acc t = acc ++ push_term [] t := by
  unfold push_term
  split <;> simp

theorem tokenize_loop_spec (input : str) (f : Option (str → str)) :
    ∀ (fuel i : Nat) (acc : List token_t), i ≤ input.length → input.length - i < fuel →
      tokenize_loop input f fuel i acc = some (acc ++ lex f (input.drop i)) := by
  intro fuel
  induction fuel with
  | zero => intro i _ _ h; omega
  | succ n ih =>
    intro i acc hi hf
    unfold tokenize_loop
    by_cases hlt : i < input.length
    · have hd : input.drop i = input[i] :: input.drop (i + 1) := List.drop_eq_getElem_cons hlt
      rw [if_pos hlt, str_at_drop, keyword_at_spec _ _ _ hi, keyword_at_spec _ _ _ hi, hd]
      simp only [List.head?_cons]
      rw [lex]
      by_cases hs : isspace input[i] = true
      · rw [if_pos hs, if_pos hs]
        exact ih _ _ (by omega) (by omega)
      rw [if_neg hs, if_neg hs]
      by_cases hl : input[i] = '('
      · rw [if_pos hl, if_pos hl, ih _ _ (by omega) (by omega)]
        simp
      rw [if_neg hl, if_neg hl]
      by_cases hr : input[i] = ')'
      · rw [if_pos hr, if_pos hr, ih _ _ (by omega) (by omega)]
        simp
      rw [if_neg hr, if_neg hr]
      by_cases hand : is_keyword "AND".data (input[i] :: input.drop (i + 1)) = true
      · have h3 := is_keyword_length _ _ hand
        simp only [List.length_cons, List.length_drop] at h3
        have h3 : 3 ≤ input.length - (i + 1) + 1 := h3
        rw [hand, if_pos rfl]
        simp only
        rw [ih _ _ (by omega) (by omega), List.drop_drop]
        simp [Nat.add_comm, Nat.add_left_comm]
      rw [Bool.not_eq_true] at hand
      rw [hand]
      simp only [Bool.false_eq_true, if_false]
      by_cases hor : is_keyword "OR".data (input[i] :: input.drop (i + 1)) = true
      · have h3 := is_keyword_length _ _ hor
        simp only [List.length_cons, List.length_drop] at h3
        have h3 : 2 ≤ input.length - (i + 1) + 1 := h3
        rw [hor, if_pos rfl]
        simp only
        rw [ih _ _ (by omega) (by omega), List.drop_drop]
        simp [Nat.add_comm, Nat.add_left_comm]
      rw [Bool.not_eq_true] at hor
      rw [hor]
      simp only [Bool.false_eq_true, if_false]
      by_cases hq : input[i] = '"'
      · rw [if_pos hq, if_pos hq, scan_while_spec _ _ _ _ (by omega) (by omega)]
        simp only
        have hle := length_takeWhile_le not_quote (input.drop (i + 1))
        rw [List.length_drop] at hle
        by_cases hj : i + 1 + ((input.drop (i + 1)).takeWhile not_quote).length ≥ input.length
        · rw [if_pos hj]
          unfold substr_from
          rw [if_pos (by omega)]
          simp only
          have hall : (input.drop (i + 1)).takeWhile not_quote = input.drop (i + 1) := by
            rw [← take_length_takeWhile]
            apply List.take_of_length_le
            rw [List.length_drop]
            omega
          have hnone : (input.drop (i + 1)).dropWhile not_quote = [] := by
            rw [← drop_length_takeWhile]
            apply List.drop_eq_nil_of_le
            rw [List.length_drop]
            omega
          rw [ih _ _ (Nat.le_refl _) (by omega), hall, hnone, push_term_append]
          simp
        · rw [if_neg hj]
          unfold substr
          rw [if_pos (by omega)]
          simp only
          rw [ih _ _ (by omega) (by omega), Nat.add_sub_cancel_left, take_length_takeWhile,
            push_term_append, ← drop_length_takeWhile, List.drop_drop, List.drop_drop]
          simp [Nat.add_comm, Nat.add_left_comm, Nat.add_assoc]
      · rw [if_neg hq, if_neg hq, scan_while_spec _ _ _ _ hi (by omega)]
        simp only
        have htc : term_char input[i] = true := by
          simp [term_char, hs, hl, hr]
        have hle := length_takeWhile_le term_char (input.drop i)
        rw [List.length_drop] at hle
        have htw : (input.drop i).takeWhile term_char
            = input[i] :: (input.drop (i + 1)).takeWhile term_char := by
          rw [hd, List.takeWhile_cons, if_pos htc]
        have hdw : (input.drop i).dropWhile term_char
            = (input.drop (i + 1)).dropWhile term_char := by
          rw [hd, List.dropWhile_cons, if_pos htc]
        have hpos : 1 ≤ ((input.drop i).takeWhile term_char).length := by
          rw [htw]
          simp
        unfold substr
        rw [if_pos hi]
        simp only
        rw [Nat.add_sub_cancel_left, take_length_takeWhile, ih _ _ (by omega) (by omega),
          ← List.drop_drop, drop_length_takeWhile, hdw, htw]
        simp only [List.isEmpty_cons, Bool.false_eq_true, if_false]
        rw [push_term_append]
        simp
    · have hi2 : input.length ≤ i := by omega
      rw [if_neg hlt, List.drop_eq_nil_of_le hi2, lex]

/-- The tokenizer returns, and what it returns is the list view of its loop. -/
theorem tokenize_input_eq_lex (input : str) (f : Option (str → str)) :
    tokenize_input input f = some (lex f input) := by
  unfold tokenize_input
  rw [tokenize_loop_spec input f _ 0 [] (Nat.zero_le _) (by omega)]
  simp

/-! ## Lexing the pieces of a query -/

theorem lex_space (f : Option (str → str)) (c : Char) (cs : str) (h : isspace c = true) :
    lex f (c :: cs) = lex f cs := by
  rw [lex, if_pos h]

theorem is_keyword_cons (k c : Char) (ks cs : str) :
    is_keyword (k :: ks) (c :: cs) = (c == k && is_keyword ks cs) := by
  simp [is_keyword, Bool.and_assoc]

theorem is_keyword_plain (kw : str) (hkw : ∀ c ∈ kw, term_char c = true) :
    ∀ (t rest : str), (∀ c ∈ t, term_char c = true) → t ≠ kw → sep_start rest = true →
      is_keyword kw (t ++ rest) = false := by
  induction kw with
  | nil =>
    intro t rest ht hne _
    cases t with
    | nil => exact absurd rfl hne
    | cons c cs =>
      have := ht c (List.mem_cons_self _ _)
      simp [is_keyword, term_char] at this ⊢
      simp [this]
  | cons k ks ih =>
    intro t rest ht hne hrest
    have hk := hkw k (List.mem_cons_self _ _)
    cases t with
    | nil =>
      cases rest with
      | nil => simp [is_keyword]
      | cons r rs =>
        rw [List.nil_append, is_keyword_cons]
        have hr : term_char r = false := by simpa [sep_start] using hrest
        have : r ≠ k := by
          intro e
          rw [e, hk] at hr
          exact Bool.noConfusion hr
        simp [this]
    | cons c cs =>
      rw [List.cons_append, is_keyword_cons]
      by_cases hc : c = k
      · subst hc
        have : cs ≠ ks := fun e => hne (by rw [e])
        rw [ih (fun x hx => hkw x (List.mem_cons_of_mem _ hx)) cs rest
          (fun x hx => ht x (List.mem_cons_of_mem _ hx)) this hrest]
        simp
      · simp [hc]

theorem takeWhile_term (t rest : str) (ht : ∀ c ∈ t, term_char c = true)
    (hrest : sep_start rest = true) : (t ++ rest).takeWhile term_char = t := by
  induction t with
  | nil =>
    cases rest with
    | nil => rfl
    | cons r rs =>
      have hr : term_char r = false := by simpa [sep_start] using hrest
      simp [List.takeWhile_cons, hr]
  | cons c cs ih =>
    rw [List.cons_append, List.takeWhile_cons, if_pos (ht c (List.mem_cons_self _ _)),
      ih (fun x hx => ht x (List.mem_cons_of_mem _ hx))]

theorem dropWhile_term (t rest : str) (ht : ∀ c ∈ t, term_char c = true)
    (hrest : sep_start rest = true) : (t ++ rest).dropWhile term_char = rest := by
  induction t with
  | nil =>
    cases rest with
    | nil => rfl
    | cons r rs =>
      have hr : term_char r = false := by simpa [sep_start] using hrest
      simp [List.dropWhile_cons, hr]
  | cons c cs ih =>
    rw [List.cons_append, List.dropWhile_cons, if_pos (ht c (List.mem_cons_self _ _)),
      ih (fun x hx => ht x (List.mem_cons_of_mem _ hx))]

theorem plain_term_chars (t : str) (h : plain_term t = true) :
    ∀ c ∈ t, term_char c = true ∧ c ≠ '"' := by
  intro c hc
  simp only [plain_term, Bool.and_eq_true, List.all_eq_true] at h
  have := h.1.1.2 c hc
  simp only [Bool.and_eq_true, bne_iff_ne, ne_eq] at this
  simp [term_char, this.1.1.1, this.1.1.2, this.1.2, this.2]

theorem plain_term_ne (t : str) (h : plain_term t = true) :
    t ≠ [] ∧ t ≠ "AND".data ∧ t ≠ "OR".data := by
  simp only [plain_term, Bool.and_eq_true, bne_iff_ne, ne_eq] at h
  refine ⟨?_, h.1.2, h.2⟩
  intro e
  rw [e] at h
  simp at h

/-- An unquoted plain term followed by a separator or the end of the input is lexed as
one `TOKEN_TERM` holding the (rewritten) term. -/
theorem lex_plain (f : Option (str → str)) (t rest : str) (ht : plain_term t = true)
    (hrest : sep_start rest = true) :
    lex f (t ++ rest) = push_term [] (lookup_term f t) ++ lex f rest := by
  have hch := plain_term_chars t ht
  have hne := plain_term_ne t ht
  have htc : ∀ c ∈ t, term_char c = true := fun c hc => (hch c hc).1
  have hand := is_keyword_plain "AND".data (by decide) t rest htc hne.2.1 hrest
  have hor := is_keyword_plain "OR".data (by decide) t rest htc hne.2.2 hrest
  cases t with
  | nil => exact absurd rfl hne.1
  | cons c cs =>
    have hc := hch c (List.mem_cons_self _ _)
    have hc1 : isspace c = false ∧ c ≠ '(' ∧ c ≠ ')' := by
      have := hc.1
      simp only [term_char, Bool.and_eq_true, Bool.not_eq_true', bne_iff_ne, ne_eq] at this
      exact ⟨this.1.1, this.1.2, this.2⟩
    rw [List.cons_append] at hand hor ⊢
    rw [lex, if_neg (by simp [hc1.1]), if_neg hc1.2.1, if_neg hc1.2.2, hand, hor,
      if_neg (by simp), if_neg (by simp), if_neg hc.2,
      takeWhile_term cs rest (fun x hx => htc x (List.mem_cons_of_mem _ hx)) hrest,
      dropWhile_term cs rest (fun x hx => htc x (List.mem_cons_of_mem _ hx)) hrest]

theorem lex_AND (f : Option (str → str)) (rest : str) (hrest : sep_start rest = true) :
    lex f ('A' :: 'N' :: 'D' :: rest) = ⟨TOKEN_AND, []⟩ :: lex f rest := by
  have hk : is_keyword "AND".data ('A' :: 'N' :: 'D' :: rest) = true := by
    cases rest with
    | nil => rfl
    | cons r rs =>
      have hr : term_char r = false := by simpa [sep_start] using hrest
      simp only [term_char, Bool.and_eq_false_iff, Bool.not_eq_false', bne_eq_false_iff_eq] at hr
      simp only [is_keyword]
      rcases hr with (h | h) | h <;> simp [h]
  rw [lex, if_neg (by decide), if_neg (by decide), if_neg (by decide), if_pos hk]
  rfl

theorem lex_OR (f : Option (str → str)) (rest : str) (hrest : sep_start rest = true) :
    lex f ('O' :: 'R' :: rest) = ⟨TOKEN_OR, "OR".data⟩ :: lex f rest := by
  have hk : is_keyword "OR".data ('O' :: 'R' :: rest) = true := by
    cases rest with
    | nil => rfl
    | cons r rs =>
      have hr : term_char r = false := by simpa [sep_start] using hrest
      simp only [term_char, Bool.and_eq_false_iff, Bool.not_eq_false', bne_eq_false_iff_eq] at hr
      simp only [is_keyword]
      rcases hr with (h | h) | h <;> simp [h]
  have hk2 : is_keyword "AND".data ('O' :: 'R' :: rest) = false := by
    simp [is_keyword]
  rw [lex, if_neg (by decide), if_neg (by decide), if_neg (by decide), hk2, if_neg (by simp),
    if_pos hk]
  rfl

theorem lex_lparen (f : Option (str → str)) (rest : str) :
    lex f ('(' :: rest) = ⟨TOKEN_LPAREN, []⟩ :: lex f rest := by
  rw [lex, if_neg (by decide), if_pos rfl]

theorem lex_rparen (f : Option (str → str)) (rest : str) :
    lex f (')' :: rest) = ⟨TOKEN_RPAREN, []⟩ :: lex f rest := by
  rw [lex, if_neg (by decide), if_neg (by decide), if_pos rfl]

theorem lex_nil (f : Option (str → str)) : lex f [] = [⟨TOKEN_EOF, []⟩] := by
  rw [lex]

theorem push_term_plain (t : str) (ht : plain_term t = true) :
    push_term [] (lookup_term none t) = [⟨TOKEN_TERM, t⟩] := by
  have hne := (plain_term_ne t ht).1
  cases t with
  | nil => exact absurd rfl hne
  | cons c cs => rfl

/-- An unquoted plain term, lexed without a rewrite function. -/
theorem lex_plain_none (t rest : str) (ht : plain_term t = true)
    (hrest : sep_start rest = true) :
    lex none (t ++ rest) = ⟨TOKEN_TERM, t⟩ :: lex none rest := by
  rw [lex_plain none t rest ht hrest, push_term_plain t ht]
  rfl

/-- A plain term followed by a space. -/
theorem lex_plain_sp (t rest : str) (ht : plain_term t = true) :
    lex none (t ++ ' ' :: rest) = ⟨TOKEN_TERM, t⟩ :: lex none rest := by
  rw [lex_plain_none t (' ' :: rest) ht rfl, lex_space none ' ' rest rfl]

/-- The keyword `AND` followed by a space. -/
theorem lex_AND_sp (f : Option (str → str)) (rest : str) :
    lex f ('A' :: 'N' :: 'D' :: ' ' :: rest) = ⟨TOKEN_AND, []⟩ :: lex f rest := by
  rw [lex_AND f (' ' :: rest) rfl, lex_space f ' ' rest rfl]

/-- The keyword `OR` followed by a space. -/
theorem lex_OR_sp (f : Option (str → str)) (rest : str) :
    lex f ('O' :: 'R' :: ' ' :: rest) = ⟨TOKEN_OR, "OR".data⟩ :: lex f rest := by
  rw [lex_OR f (' ' :: rest) rfl, lex_space f ' ' rest rfl]

/-- What `match_expression` computes, with the tokenizer replaced by its list view. -/
theorem match_expression_eq (content query err : str) (f : Option (str → str)) :
    match_expression content query err f =
      if query.isEmpty then some (true, err)
      else if (lex f query).length ≤ 1 then some (true, err)
      else
        match parse_run (lex f query) with
        | .error e => some (false, e)
        | .ok node => some (eval node (to_lower content), err) := by
  unfold match_expression parse_expression
  rw [tokenize_input_eq_lex]
  simp only
  split
  · rfl
  · split
    · rfl
    · cases parse_run (lex f query) <;> rfl

/-- Matching a single plain term. -/
theorem match_plain (content t err : str) (ht : plain_term t = true) :
    match_expression content t err none
      = some (eval (NODE_TERM t) (to_lower content), err) := by
  have hl : lex none t = [⟨TOKEN_TERM, t⟩, ⟨TOKEN_EOF, []⟩] := by
    have := lex_plain_none t [] ht rfl
    rw [List.append_nil, lex_nil] at this
    exact this
  have hne := (plain_term_ne t ht).1
  rw [match_expression_eq, hl]
  cases t with
  | nil => exact absurd rfl hne
  | cons c cs => rfl

theorem lex_and_or_and (a b c d : str) (ha : plain_term a = true) (hb : plain_term b = true)
    (hc : plain_term c = true) (hd : plain_term d = true) :
    lex none (a ++ " AND ".data ++ b ++ " OR ".data ++ c ++ " AND ".data ++ d) =
      [⟨TOKEN_TERM, a⟩, ⟨TOKEN_AND, []⟩, ⟨TOKEN_TERM, b⟩, ⟨TOKEN_OR, "OR".data⟩,
       ⟨TOKEN_TERM, c⟩, ⟨TOKEN_AND, []⟩, ⟨TOKEN_TERM, d⟩, ⟨TOKEN_EOF, []⟩] := by
  have e : a ++ " AND ".data ++ b ++ " OR ".data ++ c ++ " AND ".data ++ d
      = a ++ (' ' :: 'A' :: 'N' :: 'D' :: ' ' :: (b ++ (' ' :: 'O' :: 'R' :: ' ' ::
          (c ++ (' ' :: 'A' :: 'N' :: 'D' :: ' ' :: (d ++ [])))))) := by
    simp
  rw [e, lex_plain_sp a _ ha, lex_AND_sp, lex_plain_sp b _ hb, lex_OR_sp, lex_plain_sp c _ hc,
    lex_AND_sp, lex_plain_none d [] hd rfl, lex_nil]

/-! ## Adjacent terms -/

theorem lex_join_plain (ts : List str) (hne : ts ≠ []) (hp : ∀ t ∈ ts, plain_term t = true) :
    lex none (join_with " ".data ts)
      = ts.map (fun t => (⟨TOKEN_TERM, t⟩ : token_t)) ++ [⟨TOKEN_EOF, []⟩] := by
  induction ts with
  | nil => exact absurd rfl hne
  | cons t rest ih =>
    have ht := hp t (List.mem_cons_self _ _)
    cases rest with
    | nil =>
      have := lex_plain_none t [] ht rfl
      rw [List.append_nil, lex_nil] at this
      simpa [join_with] using this
    | cons u us =>
      have e : join_with " ".data (t :: u :: us) = t ++ ' ' :: join_with " ".data (u :: us) := by
        simp [join_with]
      rw [e, lex_plain_sp t _ ht, ih (by simp) (fun x hx => hp x (List.mem_cons_of_mem _ hx))]
      simp

theorem parse_loop_terms (ts : List str) :
    ∀ (stack : List node_t) (ops : List token_t),
      parse_loop (ts.map (fun t => (⟨TOKEN_TERM, t⟩ : token_t)) ++ [⟨TOKEN_EOF, []⟩]) stack ops
        = .ok ((ts.map NODE_TERM).reverse ++ stack, ops) := by
  induction ts with
  | nil => intro stack ops; rfl
  | cons t rest ih =>
    intro stack ops
    simp only [List.map_cons, List.cons_append, parse_loop, List.append_eq]
    rw [ih]
    simp

theorem eval_implicit_and (content : str) :
    ∀ (others : List node_t) (left : node_t),
      eval (implicit_and left others) content
        = others.foldl (fun acc n => acc && eval n content) (eval left content) := by
  intro others
  induction others with
  | nil => intro left; rfl
  | cons r rest ih =>
    intro left
    simp only [implicit_and, List.foldl_cons]
    rw [ih]
    rfl

theorem parse_run_terms (t : str) (rest : List str) :
    parse_run ((t :: rest).map (fun t => (⟨TOKEN_TERM, t⟩ : token_t)) ++ [⟨TOKEN_EOF, []⟩])
      = .ok (implicit_and (NODE_TERM t) (rest.map NODE_TERM)) := by
  unfold parse_run
  rw [parse_loop_terms]
  simp [finish_parse, apply_remaining]

/-! ## Parentheses on the operator stack -/

theorem lparens_cons (t : token_t) (ts : List token_t) :
    lparens (t :: ts) = lparens ts + (if t.type = TOKEN_LPAREN then 1 else 0) := by
  simp [lparens, List.countP_cons]

theorem rparens_cons (t : token_t) (ts : List token_t) :
    rparens (t :: ts) = rparens ts + (if t.type = TOKEN_RPAREN then 1 else 0) := by
  simp [rparens, List.countP_cons]

theorem is_parse_error_ne_nil (e : str) (h : is_parse_error e) : e ≠ [] := by
  rcases h with h | h <;> rw [h] <;> decide

theorem close_paren_cases (ops : List token_t) : ∀ (stack : List node_t),
    (∃ e, close_paren stack ops = .error e ∧ is_parse_error e) ∨
    (∃ st1 ops1, close_paren stack ops = .ok (st1, ops1) ∧ lparens ops = lparens ops1 + 1) := by
  induction ops with
  | nil => intro stack; exact Or.inl ⟨_, rfl, Or.inl rfl⟩
  | cons top ops ih =>
    intro stack
    unfold close_paren
    by_cases h : top.type = TOKEN_LPAREN
    · rw [if_pos h]
      exact Or.inr ⟨stack, ops, rfl, by rw [lparens_cons, if_pos h]⟩
    · rw [if_neg h]
      cases hap : apply_op stack (top :: ops) with
      | none => exact Or.inl ⟨_, rfl, Or.inr rfl⟩
      | some p =>
        obtain ⟨st1, o1⟩ := p
        simp only
        rcases ih st1 with ⟨e, he, hpe⟩ | ⟨st2, ops2, hok, hl⟩
        · exact Or.inl ⟨e, he, hpe⟩
        · exact Or.inr ⟨st2, ops2, hok, by rw [lparens_cons, if_neg h, hl]⟩

theorem precedence_loop_cases (token : token_t) (ops : List token_t) :
    ∀ (stack : List node_t),
    (∃ e, precedence_loop token stack ops = .error e ∧ is_parse_error e) ∨
    (∃ st1 ops1, precedence_loop token stack ops = .ok (st1, ops1) ∧
      lparens ops1 = lparens ops) := by
  induction ops with
  | nil => intro stack; exact Or.inr ⟨stack, [], rfl, rfl⟩
  | cons top ops ih =>
    intro stack
    unfold precedence_loop
    by_cases h : top.type = TOKEN_LPAREN
    · rw [if_pos h]
      exact Or.inr ⟨stack, top :: ops, rfl, rfl⟩
    · rw [if_neg h]
      by_cases hb : binds_first token top = true
      · rw [if_pos hb]
        cases hap : apply_op stack (top :: ops) with
        | none => exact Or.inl ⟨_, rfl, Or.inr rfl⟩
        | some p =>
          obtain ⟨st1, o1⟩ := p
          simp only
          rcases ih st1 with ⟨e, he, hpe⟩ | ⟨st2, ops2, hok, hl⟩
          · exact Or.inl ⟨e, he, hpe⟩
          · exact Or.inr ⟨st2, ops2, hok, by rw [lparens_cons, if_neg h, hl]; rfl⟩
      · rw [if_neg hb]
        exact Or.inr ⟨stack, top :: ops, rfl, rfl⟩

theorem apply_remaining_cases (ops : List token_t) : ∀ (stack : List node_t),
    (∃ e, apply_remaining stack ops = .error e ∧ is_parse_error e) ∨
    (∃ st1, apply_remaining stack ops = .ok st1 ∧ lparens ops = 0) := by
  induction ops with
  | nil => intro stack; exact Or.inr ⟨stack, rfl, rfl⟩
  | cons top ops ih =>
    intro stack
    unfold apply_remaining
    by_cases h : top.type = TOKEN_LPAREN
    · rw [if_pos h]
      exact Or.inl ⟨_, rfl, Or.inl rfl⟩
    · rw [if_neg h]
      cases hap : apply_op stack (top :: ops) with
      | none => exact Or.inl ⟨_, rfl, Or.inr rfl⟩
      | some p =>
        obtain ⟨st1, o1⟩ := p
        simp only
        rcases ih st1 with ⟨e, he, hpe⟩ | ⟨st2, hok, hl⟩
        · exact Or.inl ⟨e, he, hpe⟩
        · exact Or.inr ⟨st2, hok, by rw [lparens_cons, if_neg h, hl]⟩

theorem paren_step (tok : token_t) (rest ops mid ops1 : List token_t)
    (hpre : ∀ k, rparens (rest.take k) ≤ lparens mid + lparens (rest.take k))
    (hsum : lparens ops1 + rparens rest = lparens mid + lparens rest)
    (hmid : lparens mid + (if tok.type = TOKEN_RPAREN then 1 else 0)
      = lparens ops + (if tok.type = TOKEN_LPAREN then 1 else 0)) :
    (∀ k, rparens ((tok :: rest).take k) ≤ lparens ops + lparens ((tok :: rest).take k)) ∧
    lparens ops1 + rparens (tok :: rest) = lparens ops + lparens (tok :: rest) := by
  constructor
  · intro k
    cases k with
    | zero => simp [rparens]
    | succ k =>
      have := hpre k
      rw [List.take_succ_cons, rparens_cons, lparens_cons]
      omega
  · rw [rparens_cons, lparens_cons]
    omega

theorem eof_only_last_tail (tok : token_t) (rest : List token_t)
    (h : eof_only_last (tok :: rest)) : eof_only_last rest := by
  intro t ht
  cases rest with
  | nil => simp at ht
  | cons r rs =>
    apply h t
    rw [List.dropLast_cons₂]
    exact List.mem_cons_of_mem _ ht

theorem eof_only_last_head (tok : token_t) (rest : List token_t)
    (h : eof_only_last (tok :: rest)) (hty : tok.type = TOKEN_EOF) : rest = [] := by
  cases rest with
  | nil => rfl
  | cons r rs =>
    exact absurd hty (h tok (by rw [List.dropLast_cons₂]; exact List.mem_cons_self _ _))

/-- The token loop either fails with one of the two parse errors, or it ends with an
operator stack that holds exactly the parentheses still open, no prefix of the tokens
having closed more than were open. -/
theorem parse_loop_cases (ts : List token_t) : eof_only_last ts →
    ∀ (stack : List node_t) (ops : List token_t),
    (∃ e, parse_loop ts stack ops = .error e ∧ is_parse_error e) ∨
    (∃ st1 ops1, parse_loop ts stack ops = .ok (st1, ops1) ∧
      (∀ k, rparens (ts.take k) ≤ lparens ops + lparens (ts.take k)) ∧
      lparens ops1 + rparens ts = lparens ops + lparens ts) := by
  induction ts with
  | nil =>
    intro _ stack ops
    exact Or.inr ⟨stack, ops, rfl, by intro k; simp [rparens], by simp [lparens, rparens]⟩
  | cons tok rest ih =>
    intro hwf stack ops
    have ih := ih (eof_only_last_tail tok rest hwf)
    cases hty : tok.type with
    | TOKEN_EOF =>
      have hr := eof_only_last_head tok rest hwf hty
      subst hr
      refine Or.inr ⟨stack, ops, by simp [parse_loop, hty], ?_, ?_⟩
      · intro k
        cases k <;> simp [rparens, hty]
      · simp [rparens_cons, lparens_cons, hty, rparens, lparens]
    | TOKEN_TERM =>
      rcases ih (NODE_TERM tok.value :: stack) ops with ⟨e, he, hpe⟩ | ⟨st1, ops1, hok, hpre, hsum⟩
      · exact Or.inl ⟨e, by simp [parse_loop, hty, he], hpe⟩
      · exact Or.inr ⟨st1, ops1, by simp [parse_loop, hty, hok],
          paren_step tok rest ops ops ops1 hpre hsum (by simp [hty])⟩
    | TOKEN_LPAREN =>
      rcases ih stack (tok :: ops) with ⟨e, he, hpe⟩ | ⟨st1, ops1, hok, hpre, hsum⟩
      · exact Or.inl ⟨e, by simp [parse_loop, hty, he], hpe⟩
      · exact Or.inr ⟨st1, ops1, by simp [parse_loop, hty, hok],
          paren_step tok rest ops (tok :: ops) ops1 hpre hsum (by simp [hty, lparens_cons])⟩
    | TOKEN_RPAREN =>
      rcases close_paren_cases ops stack with ⟨e, he, hpe⟩ | ⟨st0, ops0, hok0, hl0⟩
      · exact Or.inl ⟨e, by simp [parse_loop, hty, he], hpe⟩
      · rcases ih st0 ops0 with ⟨e, he, hpe⟩ | ⟨st1, ops1, hok, hpre, hsum⟩
        · exact Or.inl ⟨e, by simp [parse_loop, hty, hok0, he], hpe⟩
        · exact Or.inr ⟨st1, ops1, by simp [parse_loop, hty, hok0, hok],
            paren_step tok rest ops ops0 ops1 hpre hsum (by simp [hty, hl0])⟩
    | TOKEN_AND =>
      rcases precedence_loop_cases tok ops stack with ⟨e, he, hpe⟩ | ⟨st0, ops0, hok0, hl0⟩
      · exact Or.inl ⟨e, by simp [parse_loop, hty, he], hpe⟩
      · rcases ih st0 (tok :: ops0) with ⟨e, he, hpe⟩ | ⟨st1, ops1, hok, hpre, hsum⟩
        · exact Or.inl ⟨e, by simp [parse_loop, hty, hok0, he], hpe⟩
        · exact Or.inr ⟨st1, ops1, by simp [parse_loop, hty, hok0, hok],
            paren_step tok rest ops (tok :: ops0) ops1 hpre hsum
              (by simp [hty, lparens_cons, hl0])⟩
    | TOKEN_OR =>
      rcases precedence_loop_cases tok ops stack with ⟨e, he, hpe⟩ | ⟨st0, ops0, hok0, hl0⟩
      · exact Or.inl ⟨e, by simp [parse_loop, hty, he], hpe⟩
      · rcases ih st0 (tok :: ops0) with ⟨e, he, hpe⟩ | ⟨st1, ops1, hok, hpre, hsum⟩
        · exact Or.inl ⟨e, by simp [parse_loop, hty, hok0, he], hpe⟩
        · exact Or.inr ⟨st1, ops1, by simp [parse_loop, hty, hok0, hok],
            paren_step tok rest ops (tok :: ops0) ops1 hpre hsum
              (by simp [hty, lparens_cons, hl0])⟩

/-- A token sequence with unbalanced parentheses is rejected with a parse error. -/
theorem parse_run_unbalanced (ts : List token_t) (hwf : eof_only_last ts)
    (hu : unbalanced ts) : ∃ e, parse_run ts = .error e ∧ is_parse_error e := by
  unfold parse_run
  rcases parse_loop_cases ts hwf [] [] with ⟨e, he, hpe⟩ | ⟨st1, ops1, hok, hpre, hsum⟩
  · exact ⟨e, by rw [he], hpe⟩
  · rw [hok]
    simp only
    unfold finish_parse
    rcases apply_remaining_cases ops1 st1 with ⟨e, he, hpe⟩ | ⟨st2, hok2, hz⟩
    · exact ⟨e, by rw [he], hpe⟩
    · exfalso
      have h0 : lparens ([] : List token_t) = 0 := rfl
      rw [h0] at hpre hsum
      rcases hu with ⟨k, hk⟩ | hne
      · have := hpre k
        omega
      · omega

/-! ## Shape of the token stream -/

theorem push_term_good (x : str) :
    ∀ t ∈ push_term [] x, t.type ≠ TOKEN_EOF ∧ (t.type = TOKEN_TERM → t.value ≠ []) := by
  intro t ht
  unfold push_term at ht
  by_cases hx : x.isEmpty = true
  · rw [if_pos hx] at ht
    simp at ht
  · rw [if_neg hx] at ht
    simp only [List.nil_append, List.mem_singleton] at ht
    subst ht
    refine ⟨by simp, fun _ e => hx ?_⟩
    simp only at e
    rw [e]
    rfl

theorem lex_shape_aux (f : Option (str → str)) : ∀ (n : Nat) (q : str), q.length ≤ n →
    ∃ body, lex f q = body ++ [⟨TOKEN_EOF, []⟩] ∧
      ∀ t ∈ body, t.type ≠ TOKEN_EOF ∧ (t.type = TOKEN_TERM → t.value ≠ []) := by
  intro n
  induction n with
  | zero =>
    intro q hq
    have : q = [] := List.length_eq_zero.mp (by omega)
    subst this
    exact ⟨[], by rw [lex_nil]; rfl, by simp⟩
  | succ n ih =>
    intro q hq
    cases q with
    | nil => exact ⟨[], by rw [lex_nil]; rfl, by simp⟩
    | cons c cs =>
      have hcs : cs.length ≤ n := by simpa using hq
      rw [lex]
      split_ifs
      · exact ih cs hcs
      · obtain ⟨body, hb, hg⟩ := ih cs hcs
        exact ⟨_ :: body, by rw [hb]; rfl, by simpa using hg⟩
      · obtain ⟨body, hb, hg⟩ := ih cs hcs
        exact ⟨_ :: body, by rw [hb]; rfl, by simpa using hg⟩
      · obtain ⟨body, hb, hg⟩ := ih (cs.drop 2) (by rw [List.length_drop]; omega)
        exact ⟨_ :: body, by rw [hb]; rfl, by simpa using hg⟩
      · obtain ⟨body, hb, hg⟩ := ih (cs.drop 1) (by rw [List.length_drop]; omega)
        exact ⟨_ :: body, by rw [hb]; rfl, by simpa using hg⟩
      · obtain ⟨body, hb, hg⟩ := ih ((cs.dropWhile not_quote).drop 1) (by
          have := (List.dropWhile_sublist (l := cs) not_quote).length_le
          rw [List.length_drop]
          omega)
        refine ⟨push_term [] (lookup_term f (cs.takeWhile not_quote)) ++ body, ?_, ?_⟩
        · rw [hb, List.append_assoc]
        · intro t ht
          rcases List.mem_append.mp ht with h | h
          · exact push_term_good _ t h
          · exact hg t h
      · obtain ⟨body, hb, hg⟩ := ih (cs.dropWhile term_char) (by
          have := (List.dropWhile_sublist (l := cs) term_char).length_le
          omega)
        refine ⟨push_term [] (lookup_term f (c :: cs.takeWhile term_char)) ++ body, ?_, ?_⟩
        · rw [hb, List.append_assoc]
        · intro t ht
          rcases List.mem_append.mp ht with h | h
          · exact push_term_good _ t h
          · exact hg t h

/-- The token stream is a body without `TOKEN_EOF`, whose `TOKEN_TERM` tokens hold
non-empty text, followed by one `TOKEN_EOF`. -/
theorem lex_shape (f : Option (str → str)) (q : str) :
    ∃ body, lex f q = body ++ [⟨TOKEN_EOF, []⟩] ∧
      ∀ t ∈ body, t.type ≠ TOKEN_EOF ∧ (t.type = TOKEN_TERM → t.value ≠ []) :=
  lex_shape_aux f q.length q (Nat.le_refl _)

theorem lex_eof_only_last (f : Option (str → str)) (q : str) : eof_only_last (lex f q) := by
  obtain ⟨body, hb, hg⟩ := lex_shape f q
  intro t ht
  rw [hb, List.dropLast_concat] at ht
  exact (hg t ht).1

theorem not_unbalanced_eof : ¬ unbalanced [(⟨TOKEN_EOF, []⟩ : token_t)] := by
  rintro (⟨k, hk⟩ | h)
  · cases k with
    | zero => simp [lparens, rparens] at hk
    | succ k => simp [lparens, rparens] at hk
  · exact h rfl

theorem lex_length_of_unbalanced (f : Option (str → str)) (q : str)
    (hu : unbalanced (lex f q)) : ¬ (lex f q).length ≤ 1 := by
  obtain ⟨body, hb, _⟩ := lex_shape f q
  intro hlen
  rw [hb] at hlen hu
  cases body with
  | nil => exact not_unbalanced_eof hu
  | cons b bs => simp at hlen

/-! ## Substring search and quoted phrases -/

/-- `find` succeeds exactly when the needle is a contiguous part of the content. -/
theorem str_find_isSome_iff (needle : str) : ∀ (s : str),
    (str_find s needle).isSome = true ↔ ∃ pre post, s = pre ++ needle ++ post := by
  have key : ∀ (s : str), (str_find s needle).isSome = true ↔ needle <:+: s := by
    intro s
    induction s with
    | nil =>
      unfold str_find
      cases needle with
      | nil => simp
      | cons a t => simp
    | cons c cs ih =>
      unfold str_find
      rw [List.infix_cons_iff, ← ih, ← List.isPrefixOf_iff_prefix]
      by_cases h : needle.isPrefixOf (c :: cs) = true
      · simp [h]
      · simp [h]
  intro s
  rw [key]
  constructor
  · rintro ⟨pre, post, h⟩
    exact ⟨pre, post, h.symm⟩
  · rintro ⟨pre, post, h⟩
    exact ⟨pre, post, h.symm⟩

theorem takeWhile_not_quote (p rest : str) (hp : '"' ∉ p) :
    (p ++ '"' :: rest).takeWhile not_quote = p := by
  induction p with
  | nil => simp [not_quote]
  | cons c cs ih =>
    have hc : not_quote c = true := by
      simp only [not_quote, bne_iff_ne, ne_eq]
      intro e
      exact hp (by rw [e]; exact List.mem_cons_self _ _)
    rw [List.cons_append, List.takeWhile_cons, if_pos hc,
      ih (fun h => hp (List.mem_cons_of_mem _ h))]

theorem dropWhile_not_quote (p rest : str) (hp : '"' ∉ p) :
    (p ++ '"' :: rest).dropWhile not_quote = '"' :: rest := by
  induction p with
  | nil => simp [not_quote]
  | cons c cs ih =>
    have hc : not_quote c = true := by
      simp only [not_quote, bne_iff_ne, ne_eq]
      intro e
      exact hp (by rw [e]; exact List.mem_cons_self _ _)
    rw [List.cons_append, List.dropWhile_cons, if_pos hc,
      ih (fun h => hp (List.mem_cons_of_mem _ h))]

/-- A phrase between double quotes is lexed as one term, whatever it contains. -/
theorem lex_quoted (f : Option (str → str)) (p rest : str) (hp : '"' ∉ p) :
    lex f ('"' :: (p ++ '"' :: rest)) = push_term [] (lookup_term f p) ++ lex f rest := by
  have h1 : is_keyword "AND".data ('"' :: (p ++ '"' :: rest)) = false := by
    simp [is_keyword]
  have h2 : is_keyword "OR".data ('"' :: (p ++ '"' :: rest)) = false := by
    simp [is_keyword]
  rw [lex, if_neg (by decide), if_neg (by decide), if_neg (by decide), h1, h2,
    if_neg (by simp), if_neg (by simp), if_pos rfl, takeWhile_not_quote p rest hp,
    dropWhile_not_quote p rest hp]
  rfl

theorem apply_op_leaves (st : List node_t) (ops : List token_t) (st1 : List node_t)
    (ops1 : List token_t) (h : apply_op st ops = some (st1, ops1)) :
    stack_leaves st1 = stack_leaves st := by
  unfold apply_op at h
  split at h
  · rename_i right left rest op ops2
    simp only [Option.some.injEq, Prod.mk.injEq] at h
    rw [← h.1]
    by_cases hop : op.type = TOKEN_AND
    · simp [hop, stack_leaves, leaves]
    · simp [hop, stack_leaves, leaves]
  · exact absurd h (by simp)

theorem close_paren_leaves (ops : List token_t) : ∀ (st st1 : List node_t)
    (ops1 : List token_t), close_paren st ops = .ok (st1, ops1) →
    stack_leaves st1 = stack_leaves st := by
  induction ops with
  | nil => intro st st1 ops1 h; simp [close_paren] at h
  | cons top ops ih =>
    intro st st1 ops1 h
    unfold close_paren at h
    by_cases ht : top.type = TOKEN_LPAREN
    · rw [if_pos ht] at h
      simp only [Except.ok.injEq, Prod.mk.injEq] at h
      rw [h.1]
    · rw [if_neg ht] at h
      cases hap : apply_op st (top :: ops) with
      | none => rw [hap] at h; simp at h
      | some p =>
        obtain ⟨st2, o2⟩ := p
        rw [hap] at h
        simp only at h
        rw [ih st2 st1 ops1 h, apply_op_leaves _ _ _ _ hap]

theorem precedence_loop_leaves (token : token_t) (ops : List token_t) :
    ∀ (st st1 : List node_t) (ops1 : List token_t),
    precedence_loop token st ops = .ok (st1, ops1) → stack_leaves st1 = stack_leaves st := by
  induction ops with
  | nil =>
    intro st st1 ops1 h
    simp only [precedence_loop, Except.ok.injEq, Prod.mk.injEq] at h
    rw [h.1]
  | cons top ops ih =>
    intro st st1 ops1 h
    unfold precedence_loop at h
    by_cases ht : top.type = TOKEN_LPAREN
    · rw [if_pos ht] at h
      simp only [Except.ok.injEq, Prod.mk.injEq] at h
      rw [h.1]
    · rw [if_neg ht] at h
      by_cases hb : binds_first token top = true
      · rw [if_pos hb] at h
        cases hap : apply_op st (top :: ops) with
        | none => rw [hap] at h; simp at h
        | some p =>
          obtain ⟨st2, o2⟩ := p
          rw [hap] at h
          simp only at h
          rw [ih st2 st1 ops1 h, apply_op_leaves _ _ _ _ hap]
      · rw [if_neg hb] at h
        simp only [Except.ok.injEq, Prod.mk.injEq] at h
        rw [h.1]

theorem apply_remaining_leaves (ops : List token_t) : ∀ (st st1 : List node_t),
    apply_remaining st ops = .ok st1 → stack_leaves st1 = stack_leaves st := by
  induction ops with
  | nil =>
    intro st st1 h
    simp only [apply_remaining, Except.ok.injEq] at h
    rw [h]
  | cons top ops ih =>
    intro st st1 h
    unfold apply_remaining at h
    by_cases ht : top.type = TOKEN_LPAREN
    · rw [if_pos ht] at h
      simp at h
    · rw [if_neg ht] at h
      cases hap : apply_op st (top :: ops) with
      | none => rw [hap] at h; simp at h
      | some p =>
        obtain ⟨st2, o2⟩ := p
        rw [hap] at h
        simp only at h
        rw [ih st2 st1 h, apply_op_leaves _ _ _ _ hap]

theorem parse_loop_leaves (ts : List token_t) : ∀ (st : List node_t) (ops : List token_t)
    (st1 : List node_t) (ops1 : List token_t), parse_loop ts st ops = .ok (st1, ops1) →
    stack_leaves st1 = stack_leaves st ++ term_values ts := by
  induction ts with
  | nil =>
    intro st ops st1 ops1 h
    simp only [parse_loop, Except.ok.injEq, Prod.mk.injEq] at h
    simp [term_values, h.1]
  | cons tok rest ih =>
    intro st ops st1 ops1 h
    cases hty : tok.type with
    | TOKEN_EOF =>
      simp only [parse_loop, hty, Except.ok.injEq, Prod.mk.injEq] at h
      simp [term_values, hty, h.1]
    | TOKEN_TERM =>
      simp only [parse_loop, hty] at h
      rw [ih _ _ _ _ h]
      simp [term_values, hty, stack_leaves, leaves]
    | TOKEN_LPAREN =>
      simp only [parse_loop, hty] at h
      rw [ih _ _ _ _ h]
      simp [term_values, hty]
    | TOKEN_RPAREN =>
      simp only [parse_loop, hty] at h
      cases hc : close_paren st ops with
      | error e => rw [hc] at h; simp at h
      | ok p =>
        obtain ⟨st2, o2⟩ := p
        rw [hc] at h
        simp only at h
        rw [ih _ _ _ _ h, close_paren_leaves _ _ _ _ hc]
        simp [term_values, hty]
    | TOKEN_AND =>
      simp only [parse_loop, hty] at h
      cases hc : precedence_loop tok st ops with
      | error e => rw [hc] at h; simp at h
      | ok p =>
        obtain ⟨st2, o2⟩ := p
        rw [hc] at h
        simp only at h
        rw [ih _ _ _ _ h, precedence_loop_leaves _ _ _ _ _ hc]
        simp [term_values, hty]
    | TOKEN_OR =>
      simp only [parse_loop, hty] at h
      cases hc : precedence_loop tok st ops with
      | error e => rw [hc] at h; simp at h
      | ok p =>
        obtain ⟨st2, o2⟩ := p
        rw [hc] at h
        simp only at h
        rw [ih _ _ _ _ h, precedence_loop_leaves _ _ _ _ _ hc]
        simp [term_values, hty]

theorem front_leaves_append (l : List node_t) (n : node_t) :
    front_leaves (l ++ [n]) = front_leaves l ++ leaves n := by
  induction l with
  | nil => simp [front_leaves]
  | cons a t ih => simp [front_leaves, ih]

theorem stack_leaves_eq (st : List node_t) : stack_leaves st = front_leaves st.reverse := by
  induction st with
  | nil => rfl
  | cons n st ih => rw [List.reverse_cons, front_leaves_append, ← ih, stack_leaves]

theorem implicit_and_leaves : ∀ (others : List node_t) (left : node_t),
    leaves (implicit_and left others) = leaves left ++ front_leaves others := by
  intro others
  induction others with
  | nil => intro left; simp [implicit_and, front_leaves]
  | cons r rest ih =>
    intro left
    rw [implicit_and, ih]
    simp [leaves, front_leaves]

/-- A successful parse keeps every term, once, in the order of the tokens. -/
theorem parse_run_leaves (ts : List token_t) (ast : node_t) (h : parse_run ts = .ok ast) :
    leaves ast = term_values ts := by
  unfold parse_run at h
  cases hl : parse_loop ts [] [] with
  | error e => rw [hl] at h; simp at h
  | ok p =>
    obtain ⟨st, ops⟩ := p
    rw [hl] at h
    simp only at h
    unfold finish_parse at h
    cases hr : apply_remaining st ops with
    | error e => rw [hr] at h; simp at h
    | ok st1 =>
      rw [hr] at h
      simp only at h
      have h1 := parse_loop_leaves ts _ _ _ _ hl
      have h2 := apply_remaining_leaves _ _ _ hr
      rw [stack_leaves_eq] at h2
      cases hrev : st1.reverse with
      | nil => rw [hrev] at h; simp at h
      | cons first others =>
        rw [hrev] at h
        simp only [Except.ok.injEq] at h
        rw [hrev] at h2
        have h3 : stack_leaves ([] : List node_t) = [] := rfl
        rw [h3, List.nil_append] at h1
        rw [← h, implicit_and_leaves, ← h1, ← h2]
        rfl

/-! ## Empty queries and empty content -/

theorem lex_spaces (f : Option (str → str)) (q : str) (h : ∀ c ∈ q, isspace c = true) :
    lex f q = [⟨TOKEN_EOF, []⟩] := by
  induction q with
  | nil => exact lex_nil f
  | cons c cs ih =>
    rw [lex_space f c cs (h c (List.mem_cons_self _ _))]
    exact ih (fun x hx => h x (List.mem_cons_of_mem _ hx))

theorem term_values_mem (ts : List token_t) :
    ∀ v ∈ term_values ts, ∃ t ∈ ts, t.type = TOKEN_TERM ∧ t.value = v := by
  induction ts with
  | nil => intro v hv; simp [term_values] at hv
  | cons tok rest ih =>
    intro v hv
    cases hty : tok.type <;> simp only [term_values, hty] at hv
    · rcases List.mem_cons.mp hv with h | h
      · exact ⟨tok, List.mem_cons_self _ _, hty, h.symm⟩
      · obtain ⟨t, ht, h1, h2⟩ := ih v h
        exact ⟨t, List.mem_cons_of_mem _ ht, h1, h2⟩
    all_goals first
      | exact absurd hv (List.not_mem_nil v)
      | (obtain ⟨t, ht, h1, h2⟩ := ih v hv
         exact ⟨t, List.mem_cons_of_mem _ ht, h1, h2⟩)

theorem eval_nil (ast : node_t) (h : ∀ p ∈ leaves ast, p ≠ []) : eval ast [] = false := by
  induction ast with
  | NODE_TERM phrase =>
    have hp : phrase ≠ [] := h phrase (by simp [leaves])
    cases phrase with
    | nil => exact absurd rfl hp
    | cons c cs => rfl
  | NODE_AND l r ihl ihr =>
    have hl := ihl (fun p hp => h p (by simp [leaves, hp]))
    simp [eval, hl]
  | NODE_OR l r ihl ihr =>
    have hl := ihl (fun p hp => h p (by simp [leaves, hp]))
    have hr := ihr (fun p hp => h p (by simp [leaves, hp]))
    simp [eval, hl, hr]

/-- Every tree parsed from a token stream of the tokenizer is false on empty content. -/
theorem eval_nil_of_lex (f : Option (str → str)) (q : str) (ast : node_t)
    (h : parse_run (lex f q) = .ok ast) : eval ast [] = false := by
  apply eval_nil
  intro p hp
  rw [parse_run_leaves _ _ h] at hp
  obtain ⟨t, ht, hty, hv⟩ := term_values_mem _ p hp
  obtain ⟨body, hb, hg⟩ := lex_shape f q
  rw [hb] at ht
  rcases List.mem_append.mp ht with hin | hin
  · rw [← hv]
    exact (hg t hin).2 hty
  · rw [List.mem_singleton] at hin
    rw [hin] at hty
    exact absurd hty (by simp)

theorem isEmpty_false_of_lex_length (f : Option (str → str)) (q : str)
    (h : 1 < (lex f q).length) : q.isEmpty = false := by
  cases q with
  | nil => rw [lex_nil] at h; simp at h
  | cons c cs => rfl

/-! ## Rewrite functions that drop every term -/

theorem push_term_filter (x : str) :
    (push_term [] x).filter (fun t => decide (t.type ≠ TOKEN_TERM)) = [] := by
  unfold push_term
  split <;> simp

theorem lex_drop_all_aux (g : str → str) (hg : ∀ t, g t = []) : ∀ (n : Nat) (q : str),
    q.length ≤ n →
    lex (some g) q = (lex none q).filter (fun t => decide (t.type ≠ TOKEN_TERM)) := by
  intro n
  induction n with
  | zero =>
    intro q hq
    have : q = [] := List.length_eq_zero.mp (by omega)
    subst this
    rw [lex_nil, lex_nil]
    rfl
  | succ n ih =>
    intro q hq
    cases q with
    | nil =>
      rw [lex_nil, lex_nil]
      rfl
    | cons c cs =>
      have hcs : cs.length ≤ n := by simpa using hq
      have hdrop : ∀ x, push_term [] (lookup_term (some g) x) = [] := by
        intro x
        simp [lookup_term, hg, push_term]
      rw [lex, lex]
      split_ifs
      · exact ih cs hcs
      · rw [ih cs hcs]
        simp
      · rw [ih cs hcs]
        simp
      · rw [ih (cs.drop 2) (by rw [List.length_drop]; omega)]
        simp
      · rw [ih (cs.drop 1) (by rw [List.length_drop]; omega)]
        simp
      · rw [hdrop, List.filter_append, push_term_filter, ih _ (by
          have := (List.dropWhile_sublist (l := cs) not_quote).length_le
          rw [List.length_drop]
          omega)]
      · rw [hdrop, List.filter_append, push_term_filter, ih _ (by
          have := (List.dropWhile_sublist (l := cs) term_char).length_le
          omega)]

/-- With a rewrite function that maps every term to the empty string, the token stream
is the one obtained without rewrite function, its `TOKEN_TERM` tokens removed. -/
theorem lex_drop_all (g : str → str) (hg : ∀ t, g t = []) (q : str) :
    lex (some g) q = (lex none q).filter (fun t => decide (t.type ≠ TOKEN_TERM)) :=
  lex_drop_all_aux g hg q.length q (Nat.le_refl _)

theorem filter_terms_only (body : List token_t)
    (h : ∀ t ∈ body, t.type = TOKEN_TERM) :
    body.filter (fun t => decide (t.type ≠ TOKEN_TERM)) = [] := by
  rw [List.filter_eq_nil_iff]
  intro t ht
  simp [h t ht]

/-- An unterminated quoted phrase runs to the end of the input. -/
theorem lex_unterminated (f : Option (str → str)) (p : str) (hp : '"' ∉ p) :
    lex f ('"' :: p) = push_term [] (lookup_term f p) ++ [⟨TOKEN_EOF, []⟩] := by
  have h1 : is_keyword "AND".data ('"' :: p) = false := by
    simp [is_keyword]
  have h2 : is_keyword "OR".data ('"' :: p) = false := by
    simp [is_keyword]
  have hall : ∀ c ∈ p, not_quote c = true := by
    intro c hc
    simp only [not_quote, bne_iff_ne, ne_eq]
    intro e
    exact hp (e ▸ hc)
  have htw : p.takeWhile not_quote = p := List.takeWhile_eq_self_iff.mpr hall
  have hdw : p.dropWhile not_quote = [] := List.dropWhile_eq_nil_iff.mpr hall
  rw [lex, if_neg (by decide), if_neg (by decide), if_neg (by decide), h1, h2,
    if_neg (by simp), if_neg (by simp), if_pos rfl, htw, hdw]
  simp [lex_nil]

/-! ## Serializing words -/

theorem is_word_char_facts (c : Char) (h : is_word_char c = true) :
    isspace c = false ∧ c ≠ '(' ∧ c ≠ ')' ∧ c ≠ '"' ∧ c ≠ squote ∧ c ≠ ' ' ∧ c ≠ '*' := by
  refine ⟨?_, ?_, ?_, ?_, ?_, ?_, ?_⟩
  · have hn : (97 ≤ c.toNat ∧ c.toNat ≤ 122) ∨ (65 ≤ c.toNat ∧ c.toNat ≤ 90) ∨
        (48 ≤ c.toNat ∧ c.toNat ≤ 57) ∨ c.toNat = 95 := by
      simp only [is_word_char, Bool.or_eq_true, Bool.and_eq_true, decide_eq_true_eq] at h
      rcases h with ((h | h) | h) | h
      · exact Or.inl h
      · exact Or.inr (Or.inl h)
      · exact Or.inr (Or.inr (Or.inl h))
      · exact Or.inr (Or.inr (Or.inr (by rw [h]; rfl)))
    simp only [isspace, Bool.or_eq_false_iff, Bool.and_eq_false_iff, decide_eq_false_iff_not]
    omega
  all_goals
    intro e
    rw [e] at h
    revert h
    decide

theorem word_term_chars (t : str) (h : word_term t = true) :
    ∀ c ∈ t, is_word_char c = true := by
  simp only [word_term, Bool.and_eq_true, List.all_eq_true] at h
  exact h.1.1.2

theorem word_term_plain (t : str) (h : word_term t = true) : plain_term t = true := by
  have hc := word_term_chars t h
  simp only [word_term, Bool.and_eq_true] at h
  simp only [plain_term, Bool.and_eq_true, List.all_eq_true]
  refine ⟨⟨⟨h.1.1.1, ?_⟩, h.1.2⟩, h.2⟩
  intro c hcm
  have := is_word_char_facts c (hc c hcm)
  simp [this.1, this.2.1, this.2.2.1, this.2.2.2.1]

theorem remove_quotes_of_not_mem (t : str) (h : '"' ∉ t) : remove_quotes t = t := by
  unfold remove_quotes
  rw [if_neg]
  rintro ⟨_, hh, _⟩
  exact h (List.mem_of_mem_head? hh)

theorem foldl_no_escape (q : Char) (rep : str) (t : str) (h : q ∉ t) : ∀ (acc : str),
    t.foldl (fun acc c => if c = q then acc ++ rep else acc ++ [c]) acc = acc ++ t := by
  induction t with
  | nil => intro acc; simp
  | cons c cs ih =>
    intro acc
    have hc : c ≠ q := fun e => h (e ▸ List.mem_cons_self _ _)
    rw [List.foldl_cons, if_neg hc, ih (fun hm => h (List.mem_cons_of_mem _ hm))]
    simp

/-- A word over `[A-Za-z0-9_]` is left as it is by the PostgreSQL escaping. -/
theorem escape_tsquery_term_word (t : str) (h : ∀ c ∈ t, is_word_char c = true) :
    escape_tsquery_term t = t := by
  have hq : '"' ∉ t := fun hm => (is_word_char_facts _ (h _ hm)).2.2.2.1 rfl
  have hs : squote ∉ t := fun hm => (is_word_char_facts _ (h _ hm)).2.2.2.2.1 rfl
  unfold escape_tsquery_term
  simp only
  rw [remove_quotes_of_not_mem t hq, foldl_no_escape squote _ t hs, List.nil_append, if_neg]
  simp only [List.any_eq_true, Bool.not_eq_true', not_exists, not_and, Bool.not_eq_false]
  exact h

theorem contains_space_false (t : str) (h : ' ' ∉ t) : t.contains ' ' = false := by
  simpa using h

theorem node_to_tsquery_word (t : str) (h : ∀ c ∈ t, is_word_char c = true) :
    node_to_tsquery (NODE_TERM t) = t := by
  have hsp : ' ' ∉ t := fun hm => (is_word_char_facts _ (h _ hm)).2.2.2.2.2.1 rfl
  unfold node_to_tsquery
  rw [contains_space_false t hsp]
  simp only [Bool.false_eq_true, if_false]
  exact escape_tsquery_term_word t h

theorem node_to_tsquery_implicit_and : ∀ (others : List node_t) (left : node_t),
    node_to_tsquery (implicit_and left others)
      = others.foldl (fun acc n => "(".data ++ acc ++ " & ".data ++ node_to_tsquery n ++ ")".data)
          (node_to_tsquery left) := by
  intro others
  induction others with
  | nil => intro left; rfl
  | cons r rest ih =>
    intro left
    rw [implicit_and, ih]
    rfl

/-- What `to_tsquery` computes, with the tokenizer replaced by its list view. -/
theorem to_tsquery_eq (query : str) (f : Option (str → str)) :
    to_tsquery query f =
      if query.isEmpty then some []
      else if (lex f query).length ≤ 1 then some []
      else
        match parse_run (lex f query) with
        | .error _ => some []
        | .ok node => some (node_to_tsquery node) := by
  unfold to_tsquery parse_expression
  rw [tokenize_input_eq_lex]
  simp only
  split
  · rfl
  · split
    · rfl
    · cases parse_run (lex f query) <;> rfl

/-- What `to_fts5_query` computes, with the tokenizer replaced by its list view. -/
theorem to_fts5_query_eq (query : str) (f : Option (str → str)) :
    to_fts5_query query f =
      if query.isEmpty then some []
      else if (lex f query).length ≤ 1 then some []
      else
        match parse_run (lex f query) with
        | .error _ => some []
        | .ok node => some (node_to_fts5_query node) := by
  unfold to_fts5_query parse_expression
  rw [tokenize_input_eq_lex]
  simp only
  split
  · rfl
  · split
    · rfl
    · cases parse_run (lex f query) <;> rfl

theorem join_with_isEmpty (sep t : str) (rest : List str) (h : t ≠ []) :
    (join_with sep (t :: rest)).isEmpty = false := by
  cases t with
  | nil => exact absurd rfl h
  | cons c cs => cases rest <;> rfl

/-! ## Phrases in the PostgreSQL serializer -/

theorem modifyHead_comp (f g : str → str) (l : List str) :
    (l.modifyHead g).modifyHead f = l.modifyHead (fun x => f (g x)) := by
  cases l <;> rfl

/-- The word loop of `node_to_tsquery` computes the words of the specification. -/
theorem tsquery_words_spec : ∀ (s word : str) (words : List str),
    tsquery_words s word words
      = words ++ ((s.splitOnP isspace).modifyHead (fun x => word ++ x)).filter
          (fun w => decide (w ≠ [])) := by
  intro s
  induction s with
  | nil =>
    intro word words
    unfold tsquery_words
    by_cases hw : word = []
    · simp [hw]
    · simp [hw]
  | cons c cs ih =>
    intro word words
    unfold tsquery_words
    rw [List.splitOnP_cons]
    by_cases hc : isspace c = true
    · rw [if_pos hc, if_pos hc]
      have hid : ∀ l : List str, l.modifyHead (fun x => x) = l := by
        intro l
        cases l <;> rfl
      by_cases hw : word = []
      · rw [if_neg (by simp [hw]), ih, hw]
        simp [hid]
      · rw [if_pos hw, ih]
        simp [hid, hw]
    · rw [if_neg hc, if_neg hc, ih, modifyHead_comp]
      simp

theorem join_with_cons_append (sep x y : str) (bs : List str) :
    join_with sep ((x ++ y) :: bs) = x ++ join_with sep (y :: bs) := by
  cases bs with
  | nil => rfl
  | cons b bs => simp [join_with]

theorem join_with_cons_cons (sep a b : str) (bs : List str) :
    join_with sep (a :: b :: bs) = a ++ sep ++ join_with sep (b :: bs) := rfl

theorem foldl_join (sep : str) : ∀ (xs : List str) (a : str),
    xs.foldl (fun r x => r ++ sep ++ x) a = join_with sep (a :: xs) := by
  intro xs
  induction xs with
  | nil => intro a; rfl
  | cons b bs ih =>
    intro a
    rw [List.foldl_cons, ih, join_with_cons_append, join_with_cons_cons]

theorem tsquery_join_pos : ∀ (ws : List str) (i : Nat) (result : str), 0 < i →
    tsquery_join ws i result
      = ws.foldl (fun r w => r ++ " <-> ".data ++ escape_tsquery_term w) result := by
  intro ws
  induction ws with
  | nil => intro i result _; rfl
  | cons w ws ih =>
    intro i result hi
    rw [tsquery_join, if_pos hi, ih _ _ (Nat.succ_pos _)]
    rfl

/-- The joining loop of `node_to_tsquery` writes the escaped words with ` <-> ` between
neighbours. -/
theorem tsquery_join_spec (ws : List str) :
    tsquery_join ws 0 [] = join_with " <-> ".data (ws.map escape_tsquery_term) := by
  cases ws with
  | nil => rfl
  | cons w ws =>
    rw [tsquery_join, if_neg (by decide), tsquery_join_pos _ _ _ (by decide), List.map_cons,
      ← foldl_join, List.foldl_map]
    rfl

theorem node_to_tsquery_phrase (phrase : str) (h : phrase.contains ' ' = true) :
    node_to_tsquery (NODE_TERM phrase)
      = join_with " <-> ".data ((spec_words phrase).map escape_tsquery_term) := by
  unfold node_to_tsquery
  rw [if_pos h, tsquery_join_spec, tsquery_words_spec]
  have hid : ∀ l : List str, l.modifyHead (fun x => ([] : str) ++ x) = l := by
    intro l
    cases l <;> rfl
  rw [hid]
  rfl

theorem mem_join_with (sep : str) (c : Char) : ∀ (ws : List str),
    c ∈ join_with sep ws → c ∈ sep ∨ ∃ w ∈ ws, c ∈ w := by
  intro ws
  induction ws with
  | nil => intro h; simp [join_with] at h
  | cons w rest ih =>
    intro h
    cases rest with
    | nil => exact Or.inr ⟨w, List.mem_cons_self _ _, by simpa [join_with] using h⟩
    | cons b bs =>
      rw [join_with_cons_cons, List.mem_append, List.mem_append] at h
      rcases h with (h | h) | h
      · exact Or.inr ⟨w, List.mem_cons_self _ _, h⟩
      · exact Or.inl h
      · rcases ih h with h1 | ⟨x, hx, hc⟩
        · exact Or.inl h1
        · exact Or.inr ⟨x, List.mem_cons_of_mem _ hx, hc⟩

theorem splitOnP_join (ws : List str) (hne : ws ≠ [])
    (h : ∀ w ∈ ws, ∀ c ∈ w, isspace c = false) :
    (join_with " ".data ws).splitOnP isspace = ws := by
  induction ws with
  | nil => exact absurd rfl hne
  | cons w rest ih =>
    have hw : ∀ x ∈ w, ¬ (isspace x = true) := by
      intro x hx
      rw [h w (List.mem_cons_self _ _) x hx]
      exact Bool.false_ne_true
    cases rest with
    | nil => exact List.splitOnP_eq_single isspace w hw
    | cons b bs =>
      have e : join_with " ".data (w :: b :: bs) = w ++ ' ' :: join_with " ".data (b :: bs) := by
        simp [join_with]
      rw [e, List.splitOnP_first isspace w hw ' ' (by decide),
        ih (by simp) (fun x hx => h x (List.mem_cons_of_mem _ hx))]

theorem phrase_word_facts (w : str) (h : phrase_word w = true) :
    w ≠ [] ∧ ∀ c ∈ w, is_word_char c = true := by
  simp only [phrase_word, Bool.and_eq_true, List.all_eq_true] at h
  refine ⟨?_, h.2⟩
  intro e
  rw [e] at h
  simp at h

/-! ## Escaping -/

/-- On strings that fit a `std::string`, the quote removal of the code is the removal of
one layer of surrounding double quotes. -/
theorem remove_quotes_eq_strip (w : str) (hlen : w.length < 2 ^ 64) :
    remove_quotes w = strip_layer w := by
  unfold remove_quotes strip_layer
  by_cases h : w.head? = some '"' ∧ w.getLast? = some '"'
  · have hne : w ≠ [] := by
      intro e
      rw [e] at h
      simp at h
    rw [if_pos ⟨hne, h⟩, if_pos h, List.dropLast_eq_take]
    cases w with
    | nil => exact absurd rfl hne
    | cons c cs =>
      simp only [List.drop_succ_cons, List.drop_zero, List.length_cons] at hlen ⊢
      cases cs with
      | nil => simp
      | cons d ds =>
        simp only [List.length_cons] at hlen ⊢
        have e : (ds.length + 1 + 1 + 2 ^ 64 - 2) % 2 ^ 64 = ds.length + 1 - 1 := by
          omega
        rw [e]
  · rw [if_neg h, if_neg (fun hh => h hh.2)]

theorem foldl_double (q : Char) (t : str) : ∀ (acc : str),
    t.foldl (fun acc c => if c = q then acc ++ [q, q] else acc ++ [c]) acc
      = acc ++ double_char q t := by
  induction t with
  | nil => intro acc; simp [double_char]
  | cons c cs ih =>
    intro acc
    rw [List.foldl_cons, double_char]
    by_cases hc : c = q
    · rw [if_pos hc, if_pos hc, ih]
      simp
    · rw [if_neg hc, if_neg hc, ih]
      simp

theorem escape_fts5_term_spec (p : str) (hlen : p.length < 2 ^ 64) :
    escape_fts5_term p =
      if (strip_layer p).any (fun c => c = '"' || c = '*') = true then
        ['"'] ++ double_char '"' (strip_layer p) ++ ['"']
      else strip_layer p := by
  unfold escape_fts5_term
  simp only
  rw [remove_quotes_eq_strip p hlen, foldl_double, List.nil_append]

/-! ## Adjacent items in the SQLite serializer -/

theorem node_to_fts5_query_implicit_and : ∀ (others : List node_t) (left : node_t),
    node_to_fts5_query (implicit_and left others)
      = others.foldl (fun acc n => acc ++ " AND ".data ++ node_to_fts5_query n)
          (node_to_fts5_query left) := by
  intro others
  induction others with
  | nil => intro left; rfl
  | cons r rest ih =>
    intro left
    rw [implicit_and, ih]
    rfl

theorem item_ok_phrase (p : str) (h : item_ok (.phrase p) = true) :
    ' ' ∈ p ∧ '"' ∉ p := by
  simpa [item_ok] using h

theorem item_ok_plain (t : str) (h : item_ok (.plain t) = true) :
    plain_term t = true ∧ '*' ∉ t := by
  simpa [item_ok] using h

/-- A valid item is serialized as it was written. -/
theorem node_to_fts5_query_item (x : fts_item) (h : item_ok x = true) :
    node_to_fts5_query (NODE_TERM (item_value x)) = item_text x := by
  cases x with
  | plain t =>
    obtain ⟨hp, hstar⟩ := item_ok_plain t h
    have hch := plain_term_chars t hp
    have hsp : ' ' ∉ t := by
      intro hm
      have := (hch _ hm).1
      revert this
      decide
    have hq : '"' ∉ t := fun hm => (hch _ hm).2 rfl
    simp only [item_value, item_text, node_to_fts5_query]
    rw [contains_space_false t hsp]
    simp only [Bool.false_eq_true, if_false]
    unfold escape_fts5_term
    simp only
    rw [remove_quotes_of_not_mem t hq, if_neg]
    simp only [List.any_eq_true, Bool.or_eq_true, decide_eq_true_eq, not_exists, not_and, not_or]
    intro c hc
    exact ⟨fun e => hq (e ▸ hc), fun e => hstar (e ▸ hc)⟩
  | phrase p =>
    obtain ⟨hsp, hq⟩ := item_ok_phrase p h
    simp only [item_value, item_text, node_to_fts5_query]
    rw [if_pos (by simpa using hsp), remove_quotes_of_not_mem p hq]
    rfl

theorem lex_items (items : List fts_item) (hne : items ≠ [])
    (h : ∀ x ∈ items, item_ok x = true) :
    lex none (join_with " ".data (items.map item_text))
      = (items.map item_value).map (fun t => (⟨TOKEN_TERM, t⟩ : token_t))
          ++ [⟨TOKEN_EOF, []⟩] := by
  induction items with
  | nil => exact absurd rfl hne
  | cons x rest ih =>
    have hx := h x (List.mem_cons_self _ _)
    have hpush : ∀ p : str, ' ' ∈ p → push_term [] (lookup_term none p) = [⟨TOKEN_TERM, p⟩] := by
      intro p hp
      cases p with
      | nil => simp at hp
      | cons c cs => rfl
    cases rest with
    | nil =>
      cases x with
      | plain t =>
        have := lex_plain_none t [] (item_ok_plain t hx).1 rfl
        rw [List.append_nil, lex_nil] at this
        simpa [join_with, item_text, item_value] using this
      | phrase p =>
        obtain ⟨hsp, hq⟩ := item_ok_phrase p hx
        have := lex_quoted none p [] hq
        rw [lex_nil, hpush p hsp] at this
        simpa [join_with, item_text, item_value] using this
    | cons y ys =>
      have hrec := ih (by simp) (fun z hz => h z (List.mem_cons_of_mem _ hz))
      rw [List.map_cons, List.map_cons, join_with_cons_cons]
      rw [List.map_cons] at hrec
      cases x with
      | plain t =>
        have e : item_text (.plain t) ++ " ".data ++ join_with " ".data (item_text y :: ys.map item_text)
            = t ++ ' ' :: join_with " ".data (item_text y :: ys.map item_text) := by
          simp [item_text]
        rw [e, lex_plain_sp t _ (item_ok_plain t hx).1, hrec]
        simp [item_value]
      | phrase p =>
        obtain ⟨hsp, hq⟩ := item_ok_phrase p hx
        have e : item_text (.phrase p) ++ " ".data
              ++ join_with " ".data (item_text y :: ys.map item_text)
            = '"' :: (p ++ '"' :: ' ' :: join_with " ".data (item_text y :: ys.map item_text)) := by
          simp [item_text]
        rw [e, lex_quoted none p _ hq, lex_space none ' ' _ rfl, hpush p hsp, hrec]
        simp [item_value]

/-! ## Unquoted terms in general -/

/-- An unquoted run of term characters that does not start with a double quote and is not
a keyword is lexed as one term, up to the next separator. -/
theorem lex_unquoted (f : Option (str → str)) (c : Char) (cs rest : str) (hc : c ≠ '"')
    (htc : ∀ x ∈ c :: cs, term_char x = true) (hand : c :: cs ≠ "AND".data)
    (hor : c :: cs ≠ "OR".data) (hrest : sep_start rest = true) :
    lex f (c :: cs ++ rest) = push_term [] (lookup_term f (c :: cs)) ++ lex f rest := by
  have h1 := is_keyword_plain "AND".data (by decide) (c :: cs) rest htc hand hrest
  have h2 := is_keyword_plain "OR".data (by decide) (c :: cs) rest htc hor hrest
  have hc1 : isspace c = false ∧ c ≠ '(' ∧ c ≠ ')' := by
    have := htc c (List.mem_cons_self _ _)
    simp only [term_char, Bool.and_eq_true, Bool.not_eq_true', bne_iff_ne, ne_eq] at this
    exact ⟨this.1.1, this.1.2, this.2⟩
  rw [List.cons_append] at h1 h2 ⊢
  rw [lex, if_neg (by simp [hc1.1]), if_neg hc1.2.1, if_neg hc1.2.2, h1, h2,
    if_neg (by simp), if_neg (by simp), if_neg hc,
    takeWhile_term cs rest (fun x hx => htc x (List.mem_cons_of_mem _ hx)) hrest,
    dropWhile_term cs rest (fun x hx => htc x (List.mem_cons_of_mem _ hx)) hrest]

/-! ## Fully parenthesised token sequences -/

theorem parse_loop_toks (t : node_t) : ∀ (rest : List token_t) (stack : List node_t)
    (ops : List token_t),
    parse_loop (toks t ++ rest) stack ops = parse_loop rest (t :: stack) ops := by
  induction t with
  | NODE_TERM p =>
    intro rest stack ops
    simp [toks, parse_loop]
  | NODE_AND l r ihl ihr =>
    intro rest stack ops
    simp only [toks, List.append_assoc, List.singleton_append, List.cons_append,
      List.nil_append]
    rw [parse_loop]
    simp only
    rw [ihl, parse_loop]
    simp only [precedence_loop, if_true]
    rw [ihr, parse_loop]
    simp [close_paren, apply_op]
  | NODE_OR l r ihl ihr =>
    intro rest stack ops
    simp only [toks, List.append_assoc, List.singleton_append, List.cons_append,
      List.nil_append]
    rw [parse_loop]
    simp only
    rw [ihl, parse_loop]
    simp only [precedence_loop, if_true]
    rw [ihr, parse_loop]
    simp [close_paren, apply_op]

/-! ## Monotonicity of the evaluator -/

theorem eval_mono (n : node_t) (c c1 : str) (h : ∃ pre post, c1 = pre ++ c ++ post)
    (he : eval n c = true) : eval n c1 = true := by
  induction n with
  | NODE_TERM p =>
    obtain ⟨pre, post, hc⟩ := h
    have h1 : (str_find c (to_lower p)).isSome = true := he
    obtain ⟨a, b, hab⟩ := (str_find_isSome_iff _ _).mp h1
    show (str_find c1 (to_lower p)).isSome = true
    rw [str_find_isSome_iff]
    exact ⟨pre ++ a, b ++ post, by rw [hc, hab]; simp⟩
  | NODE_AND l r ihl ihr =>
    simp only [eval, Bool.and_eq_true] at he ⊢
    exact ⟨ihl he.1, ihr he.2⟩
  | NODE_OR l r ihl ihr =>
    simp only [eval, Bool.or_eq_true] at he ⊢
    rcases he with he | he
    · exact Or.inl (ihl he)
    · exact Or.inr (ihr he)

/-! ## Chains of one operator -/

theorem lex_chain_or : ∀ (rest : List str) (t : str),
    (∀ x ∈ t :: rest, plain_term x = true) →
    lex none (join_with " OR ".data (t :: rest))
      = ⟨TOKEN_TERM, t⟩ :: (chain_tokens ⟨TOKEN_OR, "OR".data⟩ rest ++ [⟨TOKEN_EOF, []⟩]) := by
  intro rest
  induction rest with
  | nil =>
    intro t h
    have := lex_plain_none t [] (h t (List.mem_cons_self _ _)) rfl
    rw [List.append_nil, lex_nil] at this
    simpa [join_with, chain_tokens] using this
  | cons u us ih =>
    intro t h
    have e : join_with " OR ".data (t :: u :: us)
        = t ++ ' ' :: 'O' :: 'R' :: ' ' :: join_with " OR ".data (u :: us) := by
      simp [join_with]
    rw [e, lex_plain_sp t _ (h t (List.mem_cons_self _ _)), lex_OR_sp,
      ih u (fun x hx => h x (List.mem_cons_of_mem _ hx))]
    rfl

theorem lex_chain_and : ∀ (rest : List str) (t : str),
    (∀ x ∈ t :: rest, plain_term x = true) →
    lex none (join_with " AND ".data (t :: rest))
      = ⟨TOKEN_TERM, t⟩ :: (chain_tokens ⟨TOKEN_AND, []⟩ rest ++ [⟨TOKEN_EOF, []⟩]) := by
  intro rest
  induction rest with
  | nil =>
    intro t h
    have := lex_plain_none t [] (h t (List.mem_cons_self _ _)) rfl
    rw [List.append_nil, lex_nil] at this
    simpa [join_with, chain_tokens] using this
  | cons u us ih =>
    intro t h
    have e : join_with " AND ".data (t :: u :: us)
        = t ++ ' ' :: 'A' :: 'N' :: 'D' :: ' ' :: join_with " AND ".data (u :: us) := by
      simp [join_with]
    rw [e, lex_plain_sp t _ (h t (List.mem_cons_self _ _)), lex_AND_sp,
      ih u (fun x hx => h x (List.mem_cons_of_mem _ hx))]
    rfl

theorem chain_or_run : ∀ (rest : List str) (acc : node_t) (t : str),
    parse_from (chain_tokens ⟨TOKEN_OR, "OR".data⟩ rest ++ [⟨TOKEN_EOF, []⟩])
        [NODE_TERM t, acc] [⟨TOKEN_OR, "OR".data⟩]
      = .ok (rest.foldl (fun a u => NODE_OR a (NODE_TERM u)) (NODE_OR acc (NODE_TERM t))) := by
  intro rest
  induction rest with
  | nil => intro acc t; rfl
  | cons u us ih =>
    intro acc t
    have h := ih (NODE_OR acc (NODE_TERM t)) u
    simpa [parse_from, chain_tokens, parse_loop, precedence_loop, binds_first, apply_op]
      using h

theorem chain_and_run : ∀ (rest : List str) (acc : node_t) (t : str),
    parse_from (chain_tokens ⟨TOKEN_AND, []⟩ rest ++ [⟨TOKEN_EOF, []⟩])
        [NODE_TERM t, acc] [⟨TOKEN_AND, []⟩]
      = .ok (rest.foldl (fun a u => NODE_AND a (NODE_TERM u)) (NODE_AND acc (NODE_TERM t))) := by
  intro rest
  induction rest with
  | nil => intro acc t; rfl
  | cons u us ih =>
    intro acc t
    have h := ih (NODE_AND acc (NODE_TERM t)) u
    simpa [parse_from, chain_tokens, parse_loop, precedence_loop, binds_first, apply_op]
      using h

theorem parse_run_chain_or (t1 t2 : str) (rest : List str) :
    parse_run (⟨TOKEN_TERM, t1⟩ ::
        (chain_tokens ⟨TOKEN_OR, "OR".data⟩ (t2 :: rest) ++ [⟨TOKEN_EOF, []⟩]))
      = .ok ((t2 :: rest).foldl (fun a u => NODE_OR a (NODE_TERM u)) (NODE_TERM t1)) := by
  have h := chain_or_run rest (NODE_TERM t1) t2
  unfold parse_run
  simpa [parse_from, chain_tokens, parse_loop, precedence_loop] using h

theorem parse_run_chain_and (t1 t2 : str) (rest : List str) :
    parse_run (⟨TOKEN_TERM, t1⟩ ::
        (chain_tokens ⟨TOKEN_AND, []⟩ (t2 :: rest) ++ [⟨TOKEN_EOF, []⟩]))
      = .ok ((t2 :: rest).foldl (fun a u => NODE_AND a (NODE_TERM u)) (NODE_TERM t1)) := by
  have h := chain_and_run rest (NODE_TERM t1) t2
  unfold parse_run
  simpa [parse_from, chain_tokens, parse_loop, precedence_loop] using h

/-! ## Terms of the tokenizer and empty PostgreSQL output -/

theorem push_term_text_ok (x : str)
    (hx : '"' ∉ x ∨ (x.head? ≠ some '"' ∧ ∀ c ∈ x, term_char c = true)) :
    ∀ t ∈ push_term [] (lookup_term none x), t.type = TOKEN_TERM → term_text_ok t.value := by
  intro t ht _
  unfold push_term lookup_term at ht
  by_cases he : x.isEmpty = true
  · rw [if_pos he] at ht
    simp at ht
  · rw [if_neg he] at ht
    simp only [List.nil_append, List.mem_singleton] at ht
    subst ht
    refine ⟨?_, ?_, ?_⟩
    · intro e
      exact he (by simp only at e; rw [e]; rfl)
    · rcases hx with h | h
      · intro hh
        exact h (List.mem_of_mem_head? hh)
      · exact h.1
    · rcases hx with h | h
      · exact Or.inl h
      · exact Or.inr h.2

theorem lex_none_terms_aux : ∀ (n : Nat) (q : str), q.length ≤ n →
    ∀ t ∈ lex none q, t.type = TOKEN_TERM → term_text_ok t.value := by
  intro n
  induction n with
  | zero =>
    intro q hq
    have : q = [] := List.length_eq_zero.mp (by omega)
    subst this
    rw [lex_nil]
    intro t ht hty
    rw [List.mem_singleton] at ht
    rw [ht] at hty
    exact absurd hty (by simp)
  | succ n ih =>
    intro q hq
    cases q with
    | nil =>
      rw [lex_nil]
      intro t ht hty
      rw [List.mem_singleton] at ht
      rw [ht] at hty
      exact absurd hty (by simp)
    | cons c cs =>
      have hcs : cs.length ≤ n := by simpa using hq
      have hop : ∀ (op : token_t) (l : List token_t), op.type ≠ TOKEN_TERM →
          (∀ t ∈ l, t.type = TOKEN_TERM → term_text_ok t.value) →
          ∀ t ∈ op :: l, t.type = TOKEN_TERM → term_text_ok t.value := by
        intro op l hne hl t ht hty
        rcases List.mem_cons.mp ht with h | h
        · rw [h] at hty
          exact absurd hty hne
        · exact hl t h hty
      rw [lex]
      split_ifs with h1 h2 h3 h4 h5 h6
      · exact ih cs hcs
      · exact hop _ _ (by simp) (ih cs hcs)
      · exact hop _ _ (by simp) (ih cs hcs)
      · exact hop _ _ (by simp) (ih _ (by rw [List.length_drop]; omega))
      · exact hop _ _ (by simp) (ih _ (by rw [List.length_drop]; omega))
      · intro t ht hty
        rcases List.mem_append.mp ht with h | h
        · refine push_term_text_ok _ (Or.inl ?_) t h hty
          intro hm
          have := List.mem_takeWhile_imp hm
          simp [not_quote] at this
        · exact ih _ (by
            have := (List.dropWhile_sublist (l := cs) not_quote).length_le
            rw [List.length_drop]
            omega) t h hty
      · intro t ht hty
        rcases List.mem_append.mp ht with h | h
        · refine push_term_text_ok _ (Or.inr ⟨by simpa using h6, ?_⟩) t h hty
          intro x hx
          rcases List.mem_cons.mp hx with hx | hx
          · rw [hx]
            simp [term_char, h1, h2, h3]
          · exact List.mem_takeWhile_imp hx
        · exact ih _ (by
            have := (List.dropWhile_sublist (l := cs) term_char).length_le
            omega) t h hty

/-- Without rewrite function, every `TOKEN_TERM` of the token stream has a text that is
not empty, does not start with a double quote, and has no double quote at all or no
whitespace and no parenthesis. -/
theorem lex_none_terms (q : str) :
    ∀ t ∈ lex none q, t.type = TOKEN_TERM → term_text_ok t.value :=
  lex_none_terms_aux q.length q (Nat.le_refl _)

theorem tsquery_words_mem : ∀ (s word : str) (words : List str) (w : str),
    w ∈ tsquery_words s word words →
    w ∈ words ∨ (w ≠ [] ∧ ∀ c ∈ w, c ∈ word ∨ c ∈ s) := by
  intro s
  induction s with
  | nil =>
    intro word words w hw
    unfold tsquery_words at hw
    by_cases hne : word ≠ []
    · rw [if_pos hne] at hw
      rcases List.mem_append.mp hw with h | h
      · exact Or.inl h
      · rw [List.mem_singleton] at h
        subst h
        exact Or.inr ⟨hne, fun c hc => Or.inl hc⟩
    · rw [if_neg hne] at hw
      exact Or.inl hw
  | cons c cs ih =>
    intro word words w hw
    unfold tsquery_words at hw
    by_cases hc : isspace c = true
    · rw [if_pos hc] at hw
      by_cases hne : word ≠ []
      · rw [if_pos hne] at hw
        rcases ih _ _ _ hw with h | ⟨h1, h2⟩
        · rcases List.mem_append.mp h with h | h
          · exact Or.inl h
          · rw [List.mem_singleton] at h
            subst h
            exact Or.inr ⟨hne, fun c hc => Or.inl hc⟩
        · refine Or.inr ⟨h1, fun x hx => ?_⟩
          rcases h2 x hx with h | h
          · simp at h
          · exact Or.inr (List.mem_cons_of_mem _ h)
      · rw [if_neg hne] at hw
        rcases ih _ _ _ hw with h | ⟨h1, h2⟩
        · exact Or.inl h
        · refine Or.inr ⟨h1, fun x hx => ?_⟩
          rcases h2 x hx with h | h
          · exact Or.inl h
          · exact Or.inr (List.mem_cons_of_mem _ h)
    · rw [if_neg hc] at hw
      rcases ih _ _ _ hw with h | ⟨h1, h2⟩
      · exact Or.inl h
      · refine Or.inr ⟨h1, fun x hx => ?_⟩
        rcases h2 x hx with h | h
        · rcases List.mem_append.mp h with h | h
          · exact Or.inl h
          · rw [List.mem_singleton] at h
            rw [h]
            exact Or.inr (List.mem_cons_self _ _)
        · exact Or.inr (List.mem_cons_of_mem _ h)

theorem tsquery_words_eq_nil_iff : ∀ (s word : str) (words : List str),
    tsquery_words s word words = [] ↔
      words = [] ∧ word = [] ∧ ∀ c ∈ s, isspace c = true := by
  intro s
  induction s with
  | nil =>
    intro word words
    unfold tsquery_words
    by_cases hne : word ≠ []
    · rw [if_pos hne]
      simp [hne]
    · rw [if_neg hne]
      simp only [ne_eq, not_not] at hne
      simp [hne]
  | cons c cs ih =>
    intro word words
    unfold tsquery_words
    by_cases hc : isspace c = true
    · rw [if_pos hc]
      by_cases hne : word ≠ []
      · rw [if_pos hne, ih]
        simp [hne]
      · rw [if_neg hne, ih]
        simp [hc]
    · rw [if_neg hc, ih]
      simp [hc]

theorem escape_tsquery_term_ne_nil (w : str) (hne : w ≠ []) (hh : w.head? ≠ some '"') :
    escape_tsquery_term w ≠ [] := by
  have hr : remove_quotes w = w := by
    unfold remove_quotes
    rw [if_neg (fun h => hh h.2.1)]
  unfold escape_tsquery_term
  simp only
  rw [hr, foldl_double, List.nil_append]
  have hd : double_char squote w ≠ [] := by
    cases w with
    | nil => exact absurd rfl hne
    | cons c cs =>
      rw [double_char]
      by_cases hc : c = squote
      · simp [hc]
      · simp [hc]
  split
  · simp
  · exact hd

/-- When a tree serializes to the empty `tsquery`: only as a single term whose phrase is
whitespace with a space in it (given a term text as the tokenizer produces it). -/
theorem node_to_tsquery_eq_nil_iff (ast : node_t)
    (hok : ∀ p ∈ leaves ast, term_text_ok p) :
    node_to_tsquery ast = [] ↔
      ∃ p, ast = NODE_TERM p ∧ (∀ c ∈ p, isspace c = true) ∧ ' ' ∈ p := by
  cases ast with
  | NODE_AND l r => simp [node_to_tsquery]
  | NODE_OR l r => simp [node_to_tsquery]
  | NODE_TERM p =>
    have hp : term_text_ok p := hok p (by simp [leaves])
    obtain ⟨hne, hhead, hq⟩ := hp
    unfold node_to_tsquery
    by_cases hsp : p.contains ' ' = true
    · have hmem : ' ' ∈ p := by simpa using hsp
      have hnq : '"' ∉ p := by
        rcases hq with h | h
        · exact h
        · exact absurd (h ' ' hmem) (by decide)
      rw [if_pos hsp, tsquery_join_spec]
      constructor
      · intro h
        refine ⟨p, rfl, ?_, hmem⟩
        cases hw : tsquery_words p [] [] with
        | nil => exact ((tsquery_words_eq_nil_iff p [] []).mp hw).2.2
        | cons w ws =>
          exfalso
          rw [hw, List.map_cons] at h
          have hwm : w ∈ tsquery_words p [] [] := by rw [hw]; exact List.mem_cons_self _ _
          rcases tsquery_words_mem p [] [] w hwm with h1 | ⟨h1, h2⟩
          · simp at h1
          · have hwhead : w.head? ≠ some '"' := by
              intro hh
              rcases h2 '"' (List.mem_of_mem_head? hh) with h3 | h3
              · simp at h3
              · exact hnq h3
            have he := escape_tsquery_term_ne_nil w h1 hwhead
            have := join_with_isEmpty " <-> ".data (escape_tsquery_term w)
              (ws.map escape_tsquery_term) he
            rw [h] at this
            simp at this
      · rintro ⟨p1, hp1, hall, _⟩
        simp only [NODE_TERM.injEq] at hp1
        subst hp1
        rw [(tsquery_words_eq_nil_iff p [] []).mpr ⟨rfl, rfl, hall⟩]
        rfl
    · rw [if_neg hsp]
      constructor
      · intro h
        exact absurd h (escape_tsquery_term_ne_nil p hne hhead)
      · rintro ⟨p1, hp1, _, hmem⟩
        simp only [NODE_TERM.injEq] at hp1
        subst hp1
        exact absurd (by simpa using hmem) hsp

/-! ## Grouping in the SQLite serializer -/

theorem lex_and_group_or (a b c : str) (ha : plain_term a = true) (hb : plain_term b = true)
    (hc : plain_term c = true) :
    lex none (a ++ " AND (".data ++ b ++ " OR ".data ++ c ++ ")".data) =
      [⟨TOKEN_TERM, a⟩, ⟨TOKEN_AND, []⟩, ⟨TOKEN_LPAREN, []⟩, ⟨TOKEN_TERM, b⟩,
       ⟨TOKEN_OR, "OR".data⟩, ⟨TOKEN_TERM, c⟩, ⟨TOKEN_RPAREN, []⟩, ⟨TOKEN_EOF, []⟩] := by
  have e : a ++ " AND (".data ++ b ++ " OR ".data ++ c ++ ")".data
      = a ++ (' ' :: 'A' :: 'N' :: 'D' :: ' ' :: '(' :: (b ++ (' ' :: 'O' :: 'R' :: ' ' ::
          (c ++ [')'])))) := by
    simp
  rw [e, lex_plain_sp a _ ha, lex_AND_sp, lex_lparen, lex_plain_sp b _ hb, lex_OR_sp,
    lex_plain_none c [')'] hc rfl, lex_rparen, lex_nil]

theorem lex_and_or (a b c : str) (ha : plain_term a = true) (hb : plain_term b = true)
    (hc : plain_term c = true) :
    lex none (a ++ " AND ".data ++ b ++ " OR ".data ++ c) =
      [⟨TOKEN_TERM, a⟩, ⟨TOKEN_AND, []⟩, ⟨TOKEN_TERM, b⟩, ⟨TOKEN_OR, "OR".data⟩,
       ⟨TOKEN_TERM, c⟩, ⟨TOKEN_EOF, []⟩] := by
  have e : a ++ " AND ".data ++ b ++ " OR ".data ++ c
      = a ++ (' ' :: 'A' :: 'N' :: 'D' :: ' ' :: (b ++ (' ' :: 'O' :: 'R' :: ' ' ::
          (c ++ [])))) := by
    simp
  rw [e, lex_plain_sp a _ ha, lex_AND_sp, lex_plain_sp b _ hb, lex_OR_sp,
    lex_plain_none c [] hc rfl, lex_nil]

/-- A plain term is serialized for FTS5 verbatim, or between double quotes when it
contains `*`. -/
theorem node_to_fts5_query_plain (t : str) (h : plain_term t = true) :
    node_to_fts5_query (NODE_TERM t)
      = if t.contains '*' = true then ['"'] ++ t ++ ['"'] else t := by
  have hch := plain_term_chars t h
  have hsp : ' ' ∉ t := fun hm => absurd (hch _ hm).1 (by decide)
  have hq : '"' ∉ t := fun hm => (hch _ hm).2 rfl
  unfold node_to_fts5_query
  rw [contains_space_false t hsp]
  simp only [Bool.false_eq_true, if_false]
  unfold escape_fts5_term
  simp only
  rw [remove_quotes_of_not_mem t hq, foldl_no_escape '"' ['"', '"'] t hq, List.nil_append]
  by_cases hs : t.contains '*' = true
  · rw [if_pos hs, if_pos]
    simp only [List.any_eq_true, Bool.or_eq_true, decide_eq_true_eq]
    exact ⟨'*', by simpa using hs, Or.inr rfl⟩
  · rw [if_neg hs, if_neg]
    simp only [List.any_eq_true, Bool.or_eq_true, decide_eq_true_eq, not_exists, not_and,
      not_or]
    intro c hc
    exact ⟨fun e => hq (e ▸ hc), fun e => hs (by simpa using (e ▸ hc))⟩

/-! ## Claims -/

/-- C1: AND binds tighter than OR. For plain terms `a`, `b`, `c`, `d` the query
`a AND b OR c AND d` is tokenized, the parse of its tokens succeeds (leaving `err`
untouched) with the tree `Or(And(a, b), And(c, d))`, and on every content matching it
returns `(match a && match b) || (match c && match d)` without writing an error. -/
theorem C1_and_binds_tighter_than_or (a b c d : str)
    (ha : plain_term a = true) (hb : plain_term b = true)
    (hc : plain_term c = true) (hd : plain_term d = true) (content err : str) :
    (∃ tokens, tokenize_input (a ++ " AND ".data ++ b ++ " OR ".data ++ c ++ " AND ".data ++ d)
          none = some tokens ∧
        parse_expression tokens err =
          (some (NODE_OR (NODE_AND (NODE_TERM a) (NODE_TERM b))
                         (NODE_AND (NODE_TERM c) (NODE_TERM d))), err)) ∧
    ∃ ma mb mc md : Bool,
      match_expression content a err none = some (ma, err) ∧
      match_expression content b err none = some (mb, err) ∧
      match_expression content c err none = some (mc, err) ∧
      match_expression content d err none = some (md, err) ∧
      match_expression content
          (a ++ " AND ".data ++ b ++ " OR ".data ++ c ++ " AND ".data ++ d) err none
        = some ((ma && mb) || (mc && md), err) := by
  have hl := lex_and_or_and a b c d ha hb hc hd
  refine ⟨⟨_, tokenize_input_eq_lex _ _, ?_⟩, _, _, _, _, match_plain content a err ha,
    match_plain content b err hb, match_plain content c err hc, match_plain content d err hd, ?_⟩
  · rw [hl]
    rfl
  · have hne := (plain_term_ne a ha).1
    rw [match_expression_eq, hl]
    cases a with
    | nil => exact absurd rfl hne
    | cons x xs => rfl

theorem C1_and_binds_tighter_than_or_witness :
    (∃ tokens, tokenize_input ("cat".data ++ " AND ".data ++ "dog".data ++ " OR ".data ++
          "bird".data ++ " AND ".data ++ "fish".data) none = some tokens ∧
        parse_expression tokens [] =
          (some (NODE_OR (NODE_AND (NODE_TERM "cat".data) (NODE_TERM "dog".data))
                         (NODE_AND (NODE_TERM "bird".data) (NODE_TERM "fish".data))), [])) ∧
    ∃ ma mb mc md : Bool,
      match_expression "I have a bird and a fish".data "cat".data [] none = some (ma, []) ∧
      match_expression "I have a bird and a fish".data "dog".data [] none = some (mb, []) ∧
      match_expression "I have a bird and a fish".data "bird".data [] none = some (mc, []) ∧
      match_expression "I have a bird and a fish".data "fish".data [] none = some (md, []) ∧
      match_expression "I have a bird and a fish".data
          ("cat".data ++ " AND ".data ++ "dog".data ++ " OR ".data ++ "bird".data ++
            " AND ".data ++ "fish".data) [] none
        = some ((ma && mb) || (mc && md), []) :=
  C1_and_binds_tighter_than_or "cat".data "dog".data "bird".data "fish".data
    (by decide) (by decide) (by decide) (by decide) "I have a bird and a fish".data []

/-- C2: implicit AND over N terms. For a non-empty list of plain terms, matching the terms
joined by single spaces returns, leaves `err` untouched, and
equals the left-fold conjunction of the single-term matches. -/
theorem C2_implicit_and_over_terms (ts : List str) (hne : ts ≠ [])
    (hp : ∀ t ∈ ts, plain_term t = true) (content err : str) :
    ∃ ms : List Bool,
      List.Forall₂ (fun t m => match_expression content t err none = some (m, err)) ts ms ∧
      match_expression content (join_with " ".data ts) err none
        = some (ms.foldl (fun acc m => acc && m) true, err) := by
  refine ⟨ts.map (fun t => eval (NODE_TERM t) (to_lower content)), ?_, ?_⟩
  · rw [List.forall₂_map_right_iff, List.forall₂_same]
    intro t ht
    exact match_plain content t err (hp t ht)
  · have hl := lex_join_plain ts hne hp
    cases ts with
    | nil => exact absurd rfl hne
    | cons t rest =>
      have htne := (plain_term_ne t (hp t (List.mem_cons_self _ _))).1
      have hq : (join_with " ".data (t :: rest)).isEmpty = false := by
        cases t with
        | nil => exact absurd rfl htne
        | cons c cs => cases rest <;> rfl
      rw [match_expression_eq, hq, hl, parse_run_terms]
      simp only [Bool.false_eq_true, if_false, List.length_append, List.length_map,
        List.length_cons, List.length_nil]
      rw [if_neg (by omega), eval_implicit_and]
      simp [List.foldl_map]

theorem C2_implicit_and_over_terms_witness :
    ∃ ms : List Bool,
      List.Forall₂ (fun t m => match_expression "I have a cat and a dog".data t [] none
          = some (m, [])) ["cat".data, "dog".data, "fish".data] ms ∧
      match_expression "I have a cat and a dog".data
          (join_with " ".data ["cat".data, "dog".data, "fish".data]) [] none
        = some (ms.foldl (fun acc m => acc && m) true, []) :=
  C2_implicit_and_over_terms ["cat".data, "dog".data, "fish".data] (by decide) (by decide)
    "I have a cat and a dog".data []

/-- C3 as stated fails: the token loop stops reading at the first `TOKEN_EOF`, so the
unbalanced sequence `[Term a, EOF, RParen]` is parsed to `Term a` without an error. -/
theorem C3_counterexample :
    unbalanced [⟨TOKEN_TERM, "a".data⟩, ⟨TOKEN_EOF, []⟩, ⟨TOKEN_RPAREN, []⟩] ∧
    parse_expression [⟨TOKEN_TERM, "a".data⟩, ⟨TOKEN_EOF, []⟩, ⟨TOKEN_RPAREN, []⟩] []
      = (some (NODE_TERM "a".data), []) :=
  ⟨Or.inr (by decide), by decide⟩

/-- C3 (amended): mismatched parentheses fail in every token sequence that has
`TOKEN_EOF` at most in last place, as every sequence of the tokenizer has. Such a sequence
whose parenthesis tokens are not balanced makes `parse_expression` return no tree and
write one of its two error messages, which is not empty; and a query whose token stream is
unbalanced in this sense makes `match_expression` return `false` with such a message, on
every content and with every rewrite function. -/
theorem C3_mismatched_parentheses_fail :
    (∀ (tokens : List token_t) (err : str), eof_only_last tokens → unbalanced tokens →
      ∃ e, is_parse_error e ∧ e ≠ [] ∧ parse_expression tokens err = (none, e)) ∧
    (∀ (content query err : str) (f : Option (str → str)) (tokens : List token_t),
      tokenize_input query f = some tokens → unbalanced tokens →
      ∃ e, is_parse_error e ∧ e ≠ [] ∧
        match_expression content query err f = some (false, e)) := by
  constructor
  · intro tokens err hwf hu
    obtain ⟨e, he, hpe⟩ := parse_run_unbalanced tokens hwf hu
    exact ⟨e, hpe, is_parse_error_ne_nil e hpe, by simp [parse_expression, he]⟩
  · intro content query err f tokens htok hu
    rw [tokenize_input_eq_lex] at htok
    have htok := (Option.some.inj htok).symm
    subst htok
    obtain ⟨e, he, hpe⟩ := parse_run_unbalanced _ (lex_eof_only_last f query) hu
    refine ⟨e, hpe, is_parse_error_ne_nil e hpe, ?_⟩
    have hq : query.isEmpty = false := by
      cases query with
      | nil =>
        rw [lex_nil] at hu
        exact absurd hu not_unbalanced_eof
      | cons c cs => rfl
    rw [match_expression_eq, hq, if_neg (lex_length_of_unbalanced f query hu), he]
    simp

theorem C3_mismatched_parentheses_fail_witness :
    (∃ e, is_parse_error e ∧ e ≠ [] ∧
      parse_expression [⟨TOKEN_LPAREN, []⟩, ⟨TOKEN_TERM, "a".data⟩, ⟨TOKEN_AND, []⟩,
        ⟨TOKEN_TERM, "b".data⟩, ⟨TOKEN_EOF, []⟩] [] = (none, e)) ∧
    (∃ e, is_parse_error e ∧ e ≠ [] ∧
      match_expression "x".data "(a AND b".data [] none = some (false, e)) :=
  ⟨C3_mismatched_parentheses_fail.1
      [⟨TOKEN_LPAREN, []⟩, ⟨TOKEN_TERM, "a".data⟩, ⟨TOKEN_AND, []⟩,
        ⟨TOKEN_TERM, "b".data⟩, ⟨TOKEN_EOF, []⟩] []
      (by intro t ht; revert t; decide) (Or.inr (by decide)),
   C3_mismatched_parentheses_fail.2 "x".data "(a AND b".data [] none
      [⟨TOKEN_LPAREN, []⟩, ⟨TOKEN_TERM, "a".data⟩, ⟨TOKEN_AND, []⟩,
        ⟨TOKEN_TERM, "b".data⟩, ⟨TOKEN_EOF, []⟩]
      (by decide) (Or.inr (by decide))⟩

/-- C5: the empty query matches everything. On every content and with every rewrite
function, a query that is empty or whose token stream is only `TOKEN_EOF` is matched
(`true`) and `err` is left untouched; this is the case of every query made of whitespace
only. -/
theorem C5_empty_query_matches_everything (content query err : str)
    (f : Option (str → str)) :
    ((query = [] ∨ tokenize_input query f = some [⟨TOKEN_EOF, []⟩]) →
      match_expression content query err f = some (true, err)) ∧
    ((∀ c ∈ query, isspace c = true) →
      tokenize_input query f = some [⟨TOKEN_EOF, []⟩] ∧
      match_expression content query err f = some (true, err)) := by
  have key : tokenize_input query f = some [⟨TOKEN_EOF, []⟩] →
      match_expression content query err f = some (true, err) := by
    intro h
    unfold match_expression
    rw [h]
    by_cases hq : query.isEmpty = true
    · rw [if_pos hq]
    · rw [if_neg hq]
      rfl
  constructor
  · rintro (h | h)
    · subst h
      rfl
    · exact key h
  · intro h
    have ht : tokenize_input query f = some [⟨TOKEN_EOF, []⟩] := by
      rw [tokenize_input_eq_lex, lex_spaces f query h]
    exact ⟨ht, key ht⟩

theorem C5_empty_query_matches_everything_witness :
    match_expression "Hello World".data [] [] none = some (true, []) ∧
    (tokenize_input " \t ".data none = some [⟨TOKEN_EOF, []⟩] ∧
      match_expression [] " \t ".data [] none = some (true, [])) :=
  ⟨(C5_empty_query_matches_everything "Hello World".data [] [] none).1 (Or.inl rfl),
   (C5_empty_query_matches_everything [] " \t ".data [] none).2 (by decide)⟩

/-- C6 as stated fails: on content `A` the query `a` parses to `Term a` and is matched,
while `eval` of that tree on the content itself (not lowercased) is `false`. -/
theorem C6_counterexample :
    tokenize_input "a".data none = some [⟨TOKEN_TERM, "a".data⟩, ⟨TOKEN_EOF, []⟩] ∧
    parse_expression [⟨TOKEN_TERM, "a".data⟩, ⟨TOKEN_EOF, []⟩] []
      = (some (NODE_TERM "a".data), []) ∧
    match_expression "A".data "a".data [] none = some (true, []) ∧
    eval (NODE_TERM "a".data) "A".data = false := by
  decide

/-- C6 (amended): `match_expression` reports an error exactly on parse failure. When the
token stream has a token besides `TOKEN_EOF`: if `parse_expression` fails, the result is
`false` with the parse error it wrote; otherwise `err` is untouched and the result is
`eval` of the tree on the lowercased content. -/
theorem C6_error_exactly_on_parse_failure (content query err : str)
    (f : Option (str → str)) (tokens : List token_t)
    (htok : tokenize_input query f = some tokens) (hlen : 1 < tokens.length) :
    (∀ e, parse_expression tokens err = (none, e) →
      is_parse_error e ∧ match_expression content query err f = some (false, e)) ∧
    (∀ ast e, parse_expression tokens err = (some ast, e) →
      e = err ∧
      match_expression content query err f = some (eval ast (to_lower content), err)) := by
  rw [tokenize_input_eq_lex] at htok
  have htok := (Option.some.inj htok).symm
  subst htok
  have hq := isEmpty_false_of_lex_length f query hlen
  rw [match_expression_eq, hq]
  simp only [Bool.false_eq_true, if_false]
  rw [if_neg (by omega)]
  unfold parse_expression
  cases hp : parse_run (lex f query) with
  | error e0 =>
    constructor
    · intro e he
      simp only [Prod.mk.injEq, true_and] at he
      subst he
      refine ⟨?_, rfl⟩
      rcases parse_loop_cases (lex f query) (lex_eof_only_last f query) [] []
        with ⟨e1, he1, hpe⟩ | ⟨st1, ops1, hok, _, _⟩
      · simp only [parse_run, he1] at hp
        cases hp
        exact hpe
      · simp only [parse_run, hok, finish_parse] at hp
        rcases apply_remaining_cases ops1 st1 with ⟨e2, he2, hpe⟩ | ⟨st2, hok2, _⟩
        · simp only [he2] at hp
          cases hp
          exact hpe
        · simp only [hok2] at hp
          cases hrev : st2.reverse with
          | nil =>
            rw [hrev] at hp
            cases hp
            exact Or.inr rfl
          | cons a t =>
            rw [hrev] at hp
            cases hp
    · intro ast e he
      simp at he
  | ok ast0 =>
    constructor
    · intro e he
      simp at he
    · intro ast e he
      simp only [Prod.mk.injEq, Option.some.injEq] at he
      obtain ⟨h1, h2⟩ := he
      subst h1
      exact ⟨h2.symm, rfl⟩

theorem C6_error_exactly_on_parse_failure_witness :
    (is_parse_error "invalid expression".data ∧
      match_expression "Hello".data "a AND".data [] none
        = some (false, "invalid expression".data)) ∧
    (([] : str) = [] ∧
      match_expression "Hello".data "hello".data [] none
        = some (eval (NODE_TERM "hello".data) (to_lower "Hello".data), [])) :=
  ⟨(C6_error_exactly_on_parse_failure "Hello".data "a AND".data [] none
      [⟨TOKEN_TERM, "a".data⟩, ⟨TOKEN_AND, []⟩, ⟨TOKEN_EOF, []⟩] (by decide) (by decide)).1
      "invalid expression".data (by decide),
   (C6_error_exactly_on_parse_failure "Hello".data "hello".data [] none
      [⟨TOKEN_TERM, "hello".data⟩, ⟨TOKEN_EOF, []⟩] (by decide) (by decide)).2
      (NODE_TERM "hello".data) [] (by decide)⟩

/-- C7: matching is insensitive to the letter case of the content. Two contents with the
same lowercasing give the same result and the same error, for every query and every
rewrite function. -/
theorem C7_content_case_insensitive (c1 c2 query err : str) (f : Option (str → str))
    (h : to_lower c1 = to_lower c2) :
    match_expression c1 query err f = match_expression c2 query err f := by
  unfold match_expression
  rw [h]

theorem C7_content_case_insensitive_witness :
    to_lower "Hello World".data = to_lower "hELLO wORLD".data ∧
    match_expression "Hello World".data "hello AND (wor OR x)".data [] none
      = match_expression "hELLO wORLD".data "hello AND (wor OR x)".data [] none ∧
    match_expression "Hello World".data "hello AND (wor OR x)".data [] none
      = some (true, []) ∧
    match_expression "ZZZ".data "hello AND (wor OR x)".data [] none = some (false, []) :=
  ⟨by decide,
   C7_content_case_insensitive "Hello World".data "hELLO wORLD".data
    "hello AND (wor OR x)".data [] none (by decide),
   by decide, by decide⟩

/-- C8 as stated fails: `eval` does not lowercase the content. The lowercased content `a`
contains the lowercased phrase `a`, but `eval (Term a)` on content `A` is `false`. -/
theorem C8_counterexample :
    ¬ (eval (NODE_TERM "a".data) "A".data = true ↔
        ∃ pre post, to_lower "A".data = pre ++ to_lower "a".data ++ post) := by
  intro h
  have h1 : eval (NODE_TERM "a".data) "A".data = false := by decide
  rw [h1] at h
  exact Bool.noConfusion (h.mpr ⟨[], [], by decide⟩)

/-- C8 (amended): `eval` lowercases the phrase only. `eval (Term p)` is `true` exactly
when the content as given contains the lowercased `p` as a contiguous substring, so on a
content that has been lowercased (what `match_expression` passes) exactly when the
lowercased content contains the lowercased `p`; `And` is `&&` and `Or` is `||` of the
children. -/
theorem C8_eval_semantics (p content : str) (l r : node_t) :
    (eval (NODE_TERM p) content = true ↔ ∃ pre post, content = pre ++ to_lower p ++ post) ∧
    (eval (NODE_TERM p) (to_lower content) = true ↔
      ∃ pre post, to_lower content = pre ++ to_lower p ++ post) ∧
    eval (NODE_AND l r) content = (eval l content && eval r content) ∧
    eval (NODE_OR l r) content = (eval l content || eval r content) :=
  ⟨str_find_isSome_iff _ _, str_find_isSome_iff _ _, rfl, rfl⟩

/-- C9: empty content matches no non-trivial query. When the token stream of the query has
a token besides `TOKEN_EOF`, matching the empty content returns `false`, and `err` is left
untouched whenever the tokens parse. -/
theorem C9_empty_content_matches_nothing (query err : str) (f : Option (str → str))
    (tokens : List token_t) (htok : tokenize_input query f = some tokens)
    (hlen : 1 < tokens.length) :
    ∃ e, match_expression [] query err f = some (false, e) ∧
      ∀ ast e1, parse_expression tokens err = (some ast, e1) → e = err := by
  rw [tokenize_input_eq_lex] at htok
  have htok := (Option.some.inj htok).symm
  subst htok
  have hq := isEmpty_false_of_lex_length f query hlen
  rw [match_expression_eq, hq]
  simp only [Bool.false_eq_true, if_false]
  rw [if_neg (by omega)]
  unfold parse_expression
  cases hp : parse_run (lex f query) with
  | error e0 =>
    refine ⟨e0, rfl, ?_⟩
    intro ast e1 he
    simp at he
  | ok ast0 =>
    refine ⟨err, ?_, fun _ _ _ => rfl⟩
    have : eval ast0 (to_lower []) = false := eval_nil_of_lex f query ast0 hp
    simp only [this]

theorem C9_empty_content_matches_nothing_witness :
    ∃ e, match_expression [] "hello".data [] none = some (false, e) ∧
      ∀ ast e1, parse_expression [⟨TOKEN_TERM, "hello".data⟩, ⟨TOKEN_EOF, []⟩] []
        = (some ast, e1) → e = [] :=
  C9_empty_content_matches_nothing "hello".data [] none
    [⟨TOKEN_TERM, "hello".data⟩, ⟨TOKEN_EOF, []⟩] (by decide) (by decide)

/-- C10 at its failing input: on content `I have a bird` the query `(cat dog) OR bird` is
parsed as `And(cat, Or(dog, bird))` and is not matched, although `bird` alone is matched
(so the claimed value `(cat && dog) || bird` is `true`), and although the same group
written with an explicit operator, `(cat AND dog) OR bird`, is matched. -/
theorem C10_grouping_failing_input :
    tokenize_input "(cat dog) OR bird".data none
      = some [⟨TOKEN_LPAREN, []⟩, ⟨TOKEN_TERM, "cat".data⟩, ⟨TOKEN_TERM, "dog".data⟩,
          ⟨TOKEN_RPAREN, []⟩, ⟨TOKEN_OR, "OR".data⟩, ⟨TOKEN_TERM, "bird".data⟩,
          ⟨TOKEN_EOF, []⟩] ∧
    parse_expression [⟨TOKEN_LPAREN, []⟩, ⟨TOKEN_TERM, "cat".data⟩, ⟨TOKEN_TERM, "dog".data⟩,
          ⟨TOKEN_RPAREN, []⟩, ⟨TOKEN_OR, "OR".data⟩, ⟨TOKEN_TERM, "bird".data⟩,
          ⟨TOKEN_EOF, []⟩] []
      = (some (NODE_AND (NODE_TERM "cat".data)
          (NODE_OR (NODE_TERM "dog".data) (NODE_TERM "bird".data))), []) ∧
    match_expression "I have a bird".data "(cat dog) OR bird".data [] none
      = some (false, []) ∧
    match_expression "I have a bird".data "cat".data [] none = some (false, []) ∧
    match_expression "I have a bird".data "dog".data [] none = some (false, []) ∧
    match_expression "I have a bird".data "bird".data [] none = some (true, []) ∧
    match_expression "I have a bird".data "(cat AND dog) OR bird".data [] none
      = some (true, []) := by
  decide

/-- C11 as stated fails: the rewrite function is applied to terms only, so the keyword
of `a AND b` stays in the token stream when every term is dropped, and the lone `AND`
is rejected by the parser. -/
theorem C11_counterexample :
    tokenize_input "a AND b".data (some (fun _ => []))
      = some [⟨TOKEN_AND, []⟩, ⟨TOKEN_EOF, []⟩] ∧
    match_expression "x".data "a AND b".data [] (some (fun _ => []))
      = some (false, "invalid expression".data) := by
  decide

/-- C11 (amended): rewrite-drop removes the terms. If the rewrite function maps every
term to the empty string, the token stream is the stream obtained without rewrite
function with its `TOKEN_TERM` tokens removed (the operator and parenthesis tokens stay);
when the query has no operator or parenthesis token, the stream is only `TOKEN_EOF` and
`match_expression` returns `true` and leaves `err` untouched. -/
theorem C11_rewrite_drop (query content err : str) (g : str → str)
    (hg : ∀ t, g t = []) :
    ∃ ts ts0, tokenize_input query (some g) = some ts ∧
      tokenize_input query none = some ts0 ∧
      ts = ts0.filter (fun t => decide (t.type ≠ TOKEN_TERM)) ∧
      ((∀ t ∈ ts0, t.type = TOKEN_TERM ∨ t.type = TOKEN_EOF) →
        ts = [⟨TOKEN_EOF, []⟩] ∧
        match_expression content query err (some g) = some (true, err)) := by
  refine ⟨_, _, tokenize_input_eq_lex _ _, tokenize_input_eq_lex _ _,
    lex_drop_all g hg query, ?_⟩
  intro h
  have hts : lex (some g) query = [⟨TOKEN_EOF, []⟩] := by
    rw [lex_drop_all g hg query]
    obtain ⟨body, hb, hgood⟩ := lex_shape none query
    rw [hb] at h ⊢
    have hbody : ∀ t ∈ body, t.type = TOKEN_TERM := by
      intro t ht
      rcases h t (List.mem_append_left _ ht) with h1 | h1
      · exact h1
      · exact absurd h1 (hgood t ht).1
    rw [List.filter_append, filter_terms_only body hbody]
    rfl
  refine ⟨hts, ?_⟩
  rw [match_expression_eq, hts]
  split <;> rfl

theorem C11_rewrite_drop_witness :
    ∃ ts ts0, tokenize_input "hello \"big world\"".data (some (fun _ => [])) = some ts ∧
      tokenize_input "hello \"big world\"".data none = some ts0 ∧
      ts = ts0.filter (fun t => decide (t.type ≠ TOKEN_TERM)) ∧
      ((∀ t ∈ ts0, t.type = TOKEN_TERM ∨ t.type = TOKEN_EOF) →
        ts = [⟨TOKEN_EOF, []⟩] ∧
        match_expression "x".data "hello \"big world\"".data [] (some (fun _ => []))
          = some (true, [])) :=
  C11_rewrite_drop "hello \"big world\"".data "x".data [] (fun _ => []) (fun _ => rfl)

/-- C12: both serializers return the empty string on empty input or parse failure. If the
query is empty, or its token stream is only `TOKEN_EOF`, or `parse_expression` fails on
its tokens, then `to_tsquery` and `to_fts5_query` both return the empty string. -/
theorem C12_serializers_empty_on_failure (query : str) (f : Option (str → str))
    (h : query = [] ∨ tokenize_input query f = some [⟨TOKEN_EOF, []⟩] ∨
      ∃ tokens e, tokenize_input query f = some tokens ∧
        parse_expression tokens [] = (none, e)) :
    to_tsquery query f = some [] ∧ to_fts5_query query f = some [] := by
  unfold to_tsquery to_fts5_query
  rcases h with h | h | ⟨tokens, e, h1, h2⟩
  · subst h
    exact ⟨rfl, rfl⟩
  · rw [h]
    constructor <;> (split <;> rfl)
  · rw [h1]
    simp only [h2]
    constructor <;> (split <;> [rfl; (split <;> rfl)])

theorem C12_serializers_empty_on_failure_witness :
    to_tsquery "(a AND b".data none = some [] ∧ to_fts5_query "(a AND b".data none = some [] :=
  C12_serializers_empty_on_failure "(a AND b".data none
    (Or.inr (Or.inr ⟨[⟨TOKEN_LPAREN, []⟩, ⟨TOKEN_TERM, "a".data⟩, ⟨TOKEN_AND, []⟩,
      ⟨TOKEN_TERM, "b".data⟩, ⟨TOKEN_EOF, []⟩], "mismatched parentheses".data,
      by decide, by decide⟩))

/-- C13: PostgreSQL serialization of N adjacent terms is a fully parenthesised left fold.
For terms `t1 .. tn` (`n ≥ 1`) over `[A-Za-z0-9_]`, non-empty and not `AND` or `OR`,
`to_tsquery` of the terms joined by single spaces returns the left fold of
`acc, t ↦ "(" ++ acc ++ " & " ++ t ++ ")"` over `t2 .. tn` from `t1`. -/
theorem C13_tsquery_adjacent_terms (t : str) (rest : List str)
    (h : ∀ x ∈ t :: rest, word_term x = true) :
    to_tsquery (join_with " ".data (t :: rest)) none
      = some (rest.foldl (fun acc x => "(".data ++ acc ++ " & ".data ++ x ++ ")".data) t) := by
  have hp : ∀ x ∈ t :: rest, plain_term x = true := fun x hx => word_term_plain x (h x hx)
  have hl := lex_join_plain (t :: rest) (by simp) hp
  have htne := (plain_term_ne t (hp t (List.mem_cons_self _ _))).1
  rw [to_tsquery_eq, join_with_isEmpty _ t rest htne, hl, parse_run_terms]
  simp only [Bool.false_eq_true, if_false, List.length_append, List.length_map,
    List.length_cons, List.length_nil]
  rw [if_neg (by omega), node_to_tsquery_implicit_and,
    node_to_tsquery_word t (word_term_chars t (h t (List.mem_cons_self _ _)))]
  congr 1
  have hrest : ∀ x ∈ rest, word_term x = true := fun x hx => h x (List.mem_cons_of_mem _ hx)
  clear hl hp htne h
  generalize t = a
  induction rest generalizing a with
  | nil => rfl
  | cons r rs ih =>
    simp only [List.map_cons, List.foldl_cons]
    rw [node_to_tsquery_word r (word_term_chars r (hrest r (List.mem_cons_self _ _)))]
    exact ih (fun x hx => hrest x (List.mem_cons_of_mem _ hx)) _

theorem C13_tsquery_adjacent_terms_witness :
    to_tsquery (join_with " ".data ["cat".data, "dog".data, "bird".data]) none
      = some (["dog".data, "bird".data].foldl
          (fun acc x => "(".data ++ acc ++ " & ".data ++ x ++ ")".data) "cat".data) :=
  C13_tsquery_adjacent_terms "cat".data ["dog".data, "bird".data] (by decide)

/-- C14: PostgreSQL phrase serialization. For a `Term` leaf whose phrase contains a space,
`node_to_tsquery` returns the whitespace-separated words of the phrase (empty pieces
discarded, order preserved), each escaped by `escape_tsquery_term`, joined by ` <-> `; and
for `n ≥ 2` non-empty words over `[A-Za-z0-9_]`, `to_tsquery` of the words joined by single
spaces and put between double quotes returns the words joined by ` <-> `. -/
theorem C14_tsquery_phrase :
    (∀ phrase : str, phrase.contains ' ' = true →
      node_to_tsquery (NODE_TERM phrase)
        = join_with " <-> ".data ((spec_words phrase).map escape_tsquery_term)) ∧
    (∀ (w1 w2 : str) (rest : List str), (∀ w ∈ w1 :: w2 :: rest, phrase_word w = true) →
      to_tsquery ('"' :: (join_with " ".data (w1 :: w2 :: rest) ++ ['"'])) none
        = some (join_with " <-> ".data (w1 :: w2 :: rest))) := by
  refine ⟨node_to_tsquery_phrase, ?_⟩
  intro w1 w2 rest h
  have hchars : ∀ w ∈ w1 :: w2 :: rest, ∀ c ∈ w, is_word_char c = true :=
    fun w hw => (phrase_word_facts w (h w hw)).2
  have hq : '"' ∉ join_with " ".data (w1 :: w2 :: rest) := by
    intro hm
    rcases mem_join_with _ _ _ hm with h1 | ⟨w, hw, hc⟩
    · revert h1
      decide
    · exact (is_word_char_facts _ (hchars w hw _ hc)).2.2.2.1 rfl
  have hsp : (join_with " ".data (w1 :: w2 :: rest)).contains ' ' = true := by
    rw [join_with_cons_cons]
    simp
  have hne : join_with " ".data (w1 :: w2 :: rest) ≠ [] := by
    intro e
    rw [e] at hsp
    simp at hsp
  have hl : lex none ('"' :: (join_with " ".data (w1 :: w2 :: rest) ++ ['"']))
      = [⟨TOKEN_TERM, join_with " ".data (w1 :: w2 :: rest)⟩, ⟨TOKEN_EOF, []⟩] := by
    rw [lex_quoted none _ [] hq, lex_nil]
    cases hj : join_with " ".data (w1 :: w2 :: rest) with
    | nil => exact absurd hj hne
    | cons c cs => rfl
  have hsplit : spec_words (join_with " ".data (w1 :: w2 :: rest)) = w1 :: w2 :: rest := by
    unfold spec_words
    rw [splitOnP_join _ (by simp)
      (fun w hw c hc => (is_word_char_facts c (hchars w hw c hc)).1), List.filter_eq_self]
    intro w hw
    simpa using (phrase_word_facts w (h w hw)).1
  have hmap : (w1 :: w2 :: rest).map escape_tsquery_term = w1 :: w2 :: rest := by
    rw [List.map_congr_left (fun w hw => escape_tsquery_term_word w (hchars w hw))]
    simp
  rw [to_tsquery_eq, hl]
  have hrun : parse_run [⟨TOKEN_TERM, join_with " ".data (w1 :: w2 :: rest)⟩, ⟨TOKEN_EOF, []⟩]
      = .ok (NODE_TERM (join_with " ".data (w1 :: w2 :: rest))) := rfl
  rw [hrun]
  simp only [List.isEmpty_cons, Bool.false_eq_true, if_false, List.length_cons,
    List.length_nil]
  rw [if_neg (by omega), node_to_tsquery_phrase _ hsp, hsplit, hmap]

theorem C14_tsquery_phrase_witness :
    node_to_tsquery (NODE_TERM "it's  a\ttest ".data)
        = join_with " <-> ".data ((spec_words "it's  a\ttest ".data).map escape_tsquery_term) ∧
    to_tsquery ('"' :: (join_with " ".data ["quick".data, "brown".data, "fox".data] ++ ['"']))
        none = some (join_with " <-> ".data ["quick".data, "brown".data, "fox".data]) :=
  ⟨C14_tsquery_phrase.1 "it's  a\ttest ".data (by decide),
   C14_tsquery_phrase.2 "quick".data "brown".data ["fox".data] (by decide)⟩

/-- C16: SQLite FTS5 serialization of adjacent items. For `n ≥ 1` items, each a plain term
without `*` or a double-quoted phrase with at least one space and no double quote,
`to_fts5_query` of the items joined by single spaces returns the same items, as written,
joined by ` AND `. -/
theorem C16_fts5_adjacent_items (x : fts_item) (rest : List fts_item)
    (h : ∀ y ∈ x :: rest, item_ok y = true) :
    to_fts5_query (join_with " ".data ((x :: rest).map item_text)) none
      = some (join_with " AND ".data ((x :: rest).map item_text)) := by
  have hl := lex_items (x :: rest) (by simp) h
  have hx := h x (List.mem_cons_self _ _)
  have htne : item_text x ≠ [] := by
    cases x with
    | plain t => exact (plain_term_ne t (item_ok_plain t hx).1).1
    | phrase p => simp [item_text]
  rw [List.map_cons] at hl ⊢
  rw [List.map_cons] at hl
  rw [to_fts5_query_eq, join_with_isEmpty _ _ _ htne, hl]
  rw [parse_run_terms (item_value x) (rest.map item_value)]
  simp only [Bool.false_eq_true, if_false, List.length_append, List.length_map,
    List.length_cons, List.length_nil]
  rw [if_neg (by omega), node_to_fts5_query_implicit_and, node_to_fts5_query_item x hx,
    ← foldl_join, List.foldl_map, List.foldl_map, List.foldl_map]
  congr 1
  have hrest : ∀ y ∈ rest, item_ok y = true := fun y hy => h y (List.mem_cons_of_mem _ hy)
  clear hl htne hx h
  generalize item_text x = a
  induction rest generalizing a with
  | nil => rfl
  | cons r rs ih =>
    simp only [List.foldl_cons]
    rw [node_to_fts5_query_item r (hrest r (List.mem_cons_self _ _))]
    exact ih (fun y hy => hrest y (List.mem_cons_of_mem _ hy)) _

theorem C16_fts5_adjacent_items_witness :
    to_fts5_query (join_with " ".data
        ((fts_item.phrase "hello world".data :: [fts_item.plain "cat".data,
          fts_item.phrase "test case".data]).map item_text)) none
      = some (join_with " AND ".data
        ((fts_item.phrase "hello world".data :: [fts_item.plain "cat".data,
          fts_item.phrase "test case".data]).map item_text)) :=
  C16_fts5_adjacent_items (fts_item.phrase "hello world".data)
    [fts_item.plain "cat".data, fts_item.phrase "test case".data] (by decide)

/-- C17 as stated fails: the phrase `"a"` (with its quotes, no space) contains a double
quote, yet it is serialized as `a`, not as its quotes doubled between double quotes. Such
a leaf is what the parser builds when the rewrite function returns a quoted string. -/
theorem C17_counterexample :
    ['"', 'a', '"'].contains ' ' = false ∧
    ['"', 'a', '"'].any (fun c => c = '"' || c = '*') = true ∧
    node_to_fts5_query (NODE_TERM ['"', 'a', '"']) = ['a'] ∧
    node_to_fts5_query (NODE_TERM ['"', 'a', '"'])
      ≠ ['"'] ++ double_char '"' ['"', 'a', '"'] ++ ['"'] ∧
    parse_expression [⟨TOKEN_TERM, ['"', 'a', '"']⟩, ⟨TOKEN_EOF, []⟩] []
      = (some (NODE_TERM ['"', 'a', '"']), []) ∧
    tokenize_input "x".data (some (fun _ => ['"', 'a', '"']))
      = some [⟨TOKEN_TERM, ['"', 'a', '"']⟩, ⟨TOKEN_EOF, []⟩] ∧
    to_fts5_query "x".data (some (fun _ => ['"', 'a', '"'])) = some ['a'] := by
  decide

/-- C17 (amended): SQLite FTS5 single-term escaping. For a `Term` leaf whose phrase `p`
contains no space (and has a length a `std::string` can have), with `u` the phrase without
one layer of surrounding double quotes, `node_to_fts5_query` returns `u` with every
double quote doubled, between double quotes, if `u` contains a double quote or `*`, and
`u` otherwise. -/
theorem C17_fts5_single_term (p : str) (hsp : p.contains ' ' = false)
    (hlen : p.length < 2 ^ 64) :
    node_to_fts5_query (NODE_TERM p) =
      if (strip_layer p).any (fun c => c = '"' || c = '*') = true then
        ['"'] ++ double_char '"' (strip_layer p) ++ ['"']
      else strip_layer p := by
  unfold node_to_fts5_query
  rw [hsp]
  simp only [Bool.false_eq_true, if_false]
  exact escape_fts5_term_spec p hlen

theorem C17_fts5_single_term_witness :
    node_to_fts5_query (NODE_TERM "a\"b*".data) =
      if (strip_layer "a\"b*".data).any (fun c => c = '"' || c = '*') = true then
        ['"'] ++ double_char '"' (strip_layer "a\"b*".data) ++ ['"']
      else strip_layer "a\"b*".data :=
  C17_fts5_single_term "a\"b*".data (by decide) (by decide)

/-- C18 at its failing input: the tokens of `a b AND` end with a dangling `AND`, yet
`parse_expression` returns the tree `And(a, b)` without writing an error, and
`match_expression` reports a match on content `a b`; the dangling operator of `a AND`
is rejected. -/
theorem C18_dangling_operator_failing_input :
    tokenize_input "a b AND".data none
      = some [⟨TOKEN_TERM, "a".data⟩, ⟨TOKEN_TERM, "b".data⟩, ⟨TOKEN_AND, []⟩,
          ⟨TOKEN_EOF, []⟩] ∧
    parse_expression [⟨TOKEN_TERM, "a".data⟩, ⟨TOKEN_TERM, "b".data⟩, ⟨TOKEN_AND, []⟩,
          ⟨TOKEN_EOF, []⟩] []
      = (some (NODE_AND (NODE_TERM "a".data) (NODE_TERM "b".data)), []) ∧
    match_expression "a b".data "a b AND".data [] none = some (true, []) ∧
    match_expression "a b".data "a AND".data [] none
      = some (false, "invalid expression".data) := by
  decide

/-- C19: the tokenizer is total and ends its output with one sentinel. For every input
and every rewrite function `tokenize_input` returns a token sequence (no out-of-range
access, no loop that runs on); its last token is `TOKEN_EOF` and no earlier token is. -/
theorem C19_tokenizer_total (input : str) (f : Option (str → str)) :
    ∃ body, tokenize_input input f = some (body ++ [⟨TOKEN_EOF, []⟩]) ∧
      ∀ t ∈ body, t.type ≠ TOKEN_EOF := by
  obtain ⟨body, hb, hg⟩ := lex_shape f input
  exact ⟨body, by rw [tokenize_input_eq_lex, hb], fun t ht => (hg t ht).1⟩

/-- C20: quoted phrases, terminated or not, lex to one `Term`. For a non-empty `p` without
double quote, the input `"p"` and the unterminated input `"p` are both tokenized as
`[Term p, EOF]`. -/
theorem C20_quoted_phrase_one_term (p : str) (hne : p ≠ []) (hq : '"' ∉ p) :
    tokenize_input ('"' :: (p ++ ['"'])) none
      = some [⟨TOKEN_TERM, p⟩, ⟨TOKEN_EOF, []⟩] ∧
    tokenize_input ('"' :: p) none = some [⟨TOKEN_TERM, p⟩, ⟨TOKEN_EOF, []⟩] := by
  have hpush : push_term [] (lookup_term none p) = [⟨TOKEN_TERM, p⟩] := by
    cases p with
    | nil => exact absurd rfl hne
    | cons c cs => rfl
  constructor
  · rw [tokenize_input_eq_lex, lex_quoted none p [] hq, lex_nil, hpush]
    rfl
  · rw [tokenize_input_eq_lex, lex_unterminated none p hq, hpush]
    rfl

theorem C20_quoted_phrase_one_term_witness :
    tokenize_input ('"' :: ("(x AND y) OR  z".data ++ ['"'])) none
      = some [⟨TOKEN_TERM, "(x AND y) OR  z".data⟩, ⟨TOKEN_EOF, []⟩] ∧
    tokenize_input ('"' :: "(x AND y) OR  z".data) none
      = some [⟨TOKEN_TERM, "(x AND y) OR  z".data⟩, ⟨TOKEN_EOF, []⟩] :=
  C20_quoted_phrase_one_term "(x AND y) OR  z".data (by decide) (by decide)

/-- C21: `AND` and `OR` are recognised only as case-sensitive whole words. The inputs
`AND` and `OR` are tokenized as the operator token (the `TOKEN_OR` token carries the value
`OR`) and `TOKEN_EOF`; `AND` or `OR` followed by a non-empty string without whitespace or
parenthesis is one `TOKEN_TERM`; the lowercase inputs `and` and `or` are one `TOKEN_TERM`
each. -/
theorem C21_keywords_whole_words :
    tokenize_input "AND".data none = some [⟨TOKEN_AND, []⟩, ⟨TOKEN_EOF, []⟩] ∧
    tokenize_input "OR".data none = some [⟨TOKEN_OR, "OR".data⟩, ⟨TOKEN_EOF, []⟩] ∧
    (∀ s : str, s ≠ [] → (∀ c ∈ s, isspace c = false ∧ c ≠ '(' ∧ c ≠ ')') →
      tokenize_input ("AND".data ++ s) none
        = some [⟨TOKEN_TERM, "AND".data ++ s⟩, ⟨TOKEN_EOF, []⟩] ∧
      tokenize_input ("OR".data ++ s) none
        = some [⟨TOKEN_TERM, "OR".data ++ s⟩, ⟨TOKEN_EOF, []⟩]) ∧
    tokenize_input "and".data none = some [⟨TOKEN_TERM, "and".data⟩, ⟨TOKEN_EOF, []⟩] ∧
    tokenize_input "or".data none = some [⟨TOKEN_TERM, "or".data⟩, ⟨TOKEN_EOF, []⟩] := by
  refine ⟨by decide, by decide, ?_, by decide, by decide⟩
  intro s hne hs
  have hstc : ∀ x ∈ s, term_char x = true := by
    intro x hx
    have := hs x hx
    simp [term_char, this.1, this.2.1, this.2.2]
  obtain ⟨d, ds, rfl⟩ := List.exists_cons_of_ne_nil hne
  constructor
  · have h := lex_unquoted none 'A' ('N' :: 'D' :: d :: ds) [] (by decide)
      (by
        intro x hx
        simp only [List.mem_cons] at hx
        rcases hx with rfl | rfl | rfl | hx
        · decide
        · decide
        · decide
        · exact hstc x (List.mem_cons.mpr hx))
      (by simp) (by simp) rfl
    rw [List.append_nil, lex_nil] at h
    rw [tokenize_input_eq_lex]
    exact congrArg some h
  · have h := lex_unquoted none 'O' ('R' :: d :: ds) [] (by decide)
      (by
        intro x hx
        simp only [List.mem_cons] at hx
        rcases hx with rfl | rfl | hx
        · decide
        · decide
        · exact hstc x (List.mem_cons.mpr hx))
      (by simp) (by simp) rfl
    rw [List.append_nil, lex_nil] at h
    rw [tokenize_input_eq_lex]
    exact congrArg some h

theorem C21_keywords_whole_words_witness :
    tokenize_input ("AND".data ++ "ROID".data) none
        = some [⟨TOKEN_TERM, "AND".data ++ "ROID".data⟩, ⟨TOKEN_EOF, []⟩] ∧
    tokenize_input ("OR".data ++ "ROID".data) none
        = some [⟨TOKEN_TERM, "OR".data ++ "ROID".data⟩, ⟨TOKEN_EOF, []⟩] :=
  C21_keywords_whole_words.2.2.1 "ROID".data (by decide) (by decide)

/-- C24: parsing inverts full parenthesisation. For every tree `t`, `parse_expression` on
the fully parenthesised tokens of `t` followed by `TOKEN_EOF` succeeds, returns exactly
`t`, and leaves `err` untouched. -/
theorem C24_parse_inverts_parenthesisation (t : node_t) (err : str) :
    parse_expression (toks t ++ [⟨TOKEN_EOF, []⟩]) err = (some t, err) := by
  unfold parse_expression parse_run
  rw [parse_loop_toks]
  rfl

/-- C25: the parser never drops, duplicates or reorders terms. Whenever `parse_expression`
succeeds, the phrases of the leaves of its tree, read left to right, are the values of the
`TOKEN_TERM` tokens before the first `TOKEN_EOF`, in their order. -/
theorem C25_parser_keeps_terms (tokens : List token_t) (err e : str) (ast : node_t)
    (h : parse_expression tokens err = (some ast, e)) :
    leaves ast = term_values tokens := by
  unfold parse_expression at h
  cases hp : parse_run tokens with
  | error e0 => rw [hp] at h; simp at h
  | ok n =>
    rw [hp] at h
    simp only [Prod.mk.injEq, Option.some.injEq] at h
    rw [← h.1]
    exact parse_run_leaves tokens n hp

theorem C25_parser_keeps_terms_witness :
    leaves (NODE_AND (NODE_TERM "a".data) (NODE_OR (NODE_TERM "b".data) (NODE_TERM "c".data)))
      = term_values [⟨TOKEN_LPAREN, []⟩, ⟨TOKEN_TERM, "a".data⟩, ⟨TOKEN_TERM, "b".data⟩,
          ⟨TOKEN_RPAREN, []⟩, ⟨TOKEN_OR, "OR".data⟩, ⟨TOKEN_TERM, "c".data⟩,
          ⟨TOKEN_EOF, []⟩, ⟨TOKEN_TERM, "d".data⟩] :=
  C25_parser_keeps_terms _ [] [] _ (by decide)

/-- C27: matching is monotone in the content. If the content `c` is a contiguous
substring of `c1` and `match_expression` returns `true` on `c`, it returns `true` on `c1`
(with the same value of `err`), for every query and every rewrite function. -/
theorem C27_match_monotone (c c1 query err e : str) (f : Option (str → str))
    (hsub : ∃ pre post, c1 = pre ++ c ++ post)
    (h : match_expression c query err f = some (true, e)) :
    match_expression c1 query err f = some (true, e) := by
  rw [match_expression_eq] at h ⊢
  split
  · rename_i hq
    rw [if_pos hq] at h
    exact h
  · rename_i hq
    rw [if_neg hq] at h
    split
    · rename_i hl
      rw [if_pos hl] at h
      exact h
    · rename_i hl
      rw [if_neg hl] at h
      cases hp : parse_run (lex f query) with
      | error e0 =>
        rw [hp] at h
        exact h
      | ok n =>
        rw [hp] at h
        simp only [Option.some.injEq, Prod.mk.injEq] at h ⊢
        refine ⟨?_, h.2⟩
        obtain ⟨pre, post, hc⟩ := hsub
        exact eval_mono n (to_lower c) (to_lower c1)
          ⟨to_lower pre, to_lower post, by rw [hc]; simp [to_lower]⟩ h.1

theorem C27_match_monotone_witness :
    match_expression "I have a cat and a dog".data "cat AND (dog OR bird)".data [] none
      = some (true, []) :=
  C27_match_monotone "cat and a dog".data "I have a cat and a dog".data
    "cat AND (dog OR bird)".data [] [] none
    ⟨"I have a ".data, [], by decide⟩ (by decide)

/-- C22: both operators are left-associative. For `n ≥ 2` plain terms, the terms joined by
` OR ` are tokenized and parsed (with `err` untouched) to the left-nested tree
`Or(...Or(Or(t1, t2), t3)..., tn)`, and the terms joined by ` AND ` to the left-nested
tree `And(...And(And(t1, t2), t3)..., tn)`. -/
theorem C22_left_associative (t1 t2 : str) (rest : List str) (err : str)
    (h : ∀ t ∈ t1 :: t2 :: rest, plain_term t = true) :
    (∃ tokens, tokenize_input (join_with " OR ".data (t1 :: t2 :: rest)) none = some tokens ∧
      parse_expression tokens err
        = (some ((t2 :: rest).foldl (fun a u => NODE_OR a (NODE_TERM u)) (NODE_TERM t1)),
            err)) ∧
    (∃ tokens, tokenize_input (join_with " AND ".data (t1 :: t2 :: rest)) none = some tokens ∧
      parse_expression tokens err
        = (some ((t2 :: rest).foldl (fun a u => NODE_AND a (NODE_TERM u)) (NODE_TERM t1)),
            err)) := by
  constructor
  · refine ⟨_, tokenize_input_eq_lex _ _, ?_⟩
    unfold parse_expression
    rw [lex_chain_or (t2 :: rest) t1 h, parse_run_chain_or]
  · refine ⟨_, tokenize_input_eq_lex _ _, ?_⟩
    unfold parse_expression
    rw [lex_chain_and (t2 :: rest) t1 h, parse_run_chain_and]

theorem C22_left_associative_witness :
    (∃ tokens, tokenize_input (join_with " OR ".data ["a".data, "b".data, "c".data]) none
        = some tokens ∧
      parse_expression tokens []
        = (some (["b".data, "c".data].foldl (fun a u => NODE_OR a (NODE_TERM u))
            (NODE_TERM "a".data)), [])) ∧
    (∃ tokens, tokenize_input (join_with " AND ".data ["a".data, "b".data, "c".data]) none
        = some tokens ∧
      parse_expression tokens []
        = (some (["b".data, "c".data].foldl (fun a u => NODE_AND a (NODE_TERM u))
            (NODE_TERM "a".data)), [])) :=
  C22_left_associative "a".data "b".data ["c".data] [] (by decide)

/-- C23 at its failing input: `a b OR c` is parsed as `And(a, Or(b, c))` and
`a AND b OR c` as `Or(And(a, b), c)`; on content `c` the first is not matched and the
second is. -/
theorem C23_adjacency_failing_input :
    tokenize_input "a b OR c".data none
      = some [⟨TOKEN_TERM, "a".data⟩, ⟨TOKEN_TERM, "b".data⟩, ⟨TOKEN_OR, "OR".data⟩,
          ⟨TOKEN_TERM, "c".data⟩, ⟨TOKEN_EOF, []⟩] ∧
    parse_expression [⟨TOKEN_TERM, "a".data⟩, ⟨TOKEN_TERM, "b".data⟩, ⟨TOKEN_OR, "OR".data⟩,
          ⟨TOKEN_TERM, "c".data⟩, ⟨TOKEN_EOF, []⟩] []
      = (some (NODE_AND (NODE_TERM "a".data)
          (NODE_OR (NODE_TERM "b".data) (NODE_TERM "c".data))), []) ∧
    tokenize_input "a AND b OR c".data none
      = some [⟨TOKEN_TERM, "a".data⟩, ⟨TOKEN_AND, []⟩, ⟨TOKEN_TERM, "b".data⟩,
          ⟨TOKEN_OR, "OR".data⟩, ⟨TOKEN_TERM, "c".data⟩, ⟨TOKEN_EOF, []⟩] ∧
    parse_expression [⟨TOKEN_TERM, "a".data⟩, ⟨TOKEN_AND, []⟩, ⟨TOKEN_TERM, "b".data⟩,
          ⟨TOKEN_OR, "OR".data⟩, ⟨TOKEN_TERM, "c".data⟩, ⟨TOKEN_EOF, []⟩] []
      = (some (NODE_OR (NODE_AND (NODE_TERM "a".data) (NODE_TERM "b".data))
          (NODE_TERM "c".data)), []) ∧
    match_expression "c".data "a b OR c".data [] none = some (false, []) ∧
    match_expression "c".data "a AND b OR c".data [] none = some (true, []) := by
  decide

/-- C26 as stated fails: `x*` is a plain term, and the two queries built from `x*`, `b`,
`c` are not serialized as `x* AND b OR c`: the term with `*` is put between double
quotes. -/
theorem C26_counterexample :
    plain_term "x*".data = true ∧
    to_fts5_query "x* AND (b OR c)".data none = some "\"x*\" AND b OR c".data ∧
    to_fts5_query "x* AND b OR c".data none = some "\"x*\" AND b OR c".data ∧
    to_fts5_query "x* AND b OR c".data none ≠ some "x* AND b OR c".data := by
  decide

/-- C26 (amended): the FTS5 serializer loses grouping. There are two queries with the same
FTS5 serialization that match differently on a content; and for all plain terms `a`, `b`,
`c`, the query `a AND (b OR c)` parses to `And(a, Or(b, c))`, the query `a AND b OR c`
parses to `Or(And(a, b), c)`, and both are serialized as the same string: the three terms,
each between double quotes when it contains `*` and verbatim otherwise, with ` AND ` and
` OR ` between them; this is `a AND b OR c` when no term contains `*`. -/
theorem C26_fts5_loses_grouping :
    (∃ (q1 q2 content : str) (m1 m2 : Bool) (out : str),
      match_expression content q1 [] none = some (m1, []) ∧
      match_expression content q2 [] none = some (m2, []) ∧ m1 ≠ m2 ∧
      to_fts5_query q1 none = some out ∧ to_fts5_query q2 none = some out) ∧
    (∀ a b c : str, plain_term a = true → plain_term b = true → plain_term c = true →
      (∃ tokens, tokenize_input (a ++ " AND (".data ++ b ++ " OR ".data ++ c ++ ")".data) none
          = some tokens ∧
        parse_expression tokens []
          = (some (NODE_AND (NODE_TERM a) (NODE_OR (NODE_TERM b) (NODE_TERM c))), [])) ∧
      (∃ tokens, tokenize_input (a ++ " AND ".data ++ b ++ " OR ".data ++ c) none
          = some tokens ∧
        parse_expression tokens []
          = (some (NODE_OR (NODE_AND (NODE_TERM a) (NODE_TERM b)) (NODE_TERM c)), [])) ∧
      to_fts5_query (a ++ " AND (".data ++ b ++ " OR ".data ++ c ++ ")".data) none
        = some ((if a.contains '*' = true then ['"'] ++ a ++ ['"'] else a) ++ " AND ".data ++
            (if b.contains '*' = true then ['"'] ++ b ++ ['"'] else b) ++ " OR ".data ++
            (if c.contains '*' = true then ['"'] ++ c ++ ['"'] else c)) ∧
      to_fts5_query (a ++ " AND ".data ++ b ++ " OR ".data ++ c) none
        = some ((if a.contains '*' = true then ['"'] ++ a ++ ['"'] else a) ++ " AND ".data ++
            (if b.contains '*' = true then ['"'] ++ b ++ ['"'] else b) ++ " OR ".data ++
            (if c.contains '*' = true then ['"'] ++ c ++ ['"'] else c)) ∧
      (a.contains '*' = false → b.contains '*' = false → c.contains '*' = false →
        to_fts5_query (a ++ " AND (".data ++ b ++ " OR ".data ++ c ++ ")".data) none
          = some (a ++ " AND ".data ++ b ++ " OR ".data ++ c) ∧
        to_fts5_query (a ++ " AND ".data ++ b ++ " OR ".data ++ c) none
          = some (a ++ " AND ".data ++ b ++ " OR ".data ++ c))) := by
  constructor
  · exact ⟨"a AND (b OR c)".data, "a AND b OR c".data, "c".data, false, true,
      "a AND b OR c".data, by decide, by decide, by decide, by decide, by decide⟩
  · intro a b c hpa hpb hpc
    have hl1 := lex_and_group_or a b c hpa hpb hpc
    have hl2 := lex_and_or a b c hpa hpb hpc
    have hsa := node_to_fts5_query_plain a hpa
    have hsb := node_to_fts5_query_plain b hpb
    have hsc := node_to_fts5_query_plain c hpc
    have hand : ∀ l r, node_to_fts5_query (NODE_AND l r)
        = node_to_fts5_query l ++ " AND ".data ++ node_to_fts5_query r := fun _ _ => rfl
    have hor : ∀ l r, node_to_fts5_query (NODE_OR l r)
        = node_to_fts5_query l ++ " OR ".data ++ node_to_fts5_query r := fun _ _ => rfl
    have hser1 : node_to_fts5_query
        (NODE_AND (NODE_TERM a) (NODE_OR (NODE_TERM b) (NODE_TERM c)))
        = (if a.contains '*' = true then ['"'] ++ a ++ ['"'] else a) ++ " AND ".data ++
            (if b.contains '*' = true then ['"'] ++ b ++ ['"'] else b) ++ " OR ".data ++
            (if c.contains '*' = true then ['"'] ++ c ++ ['"'] else c) := by
      rw [hand, hor, hsa, hsb, hsc]
      simp only [List.append_assoc]
    have hser2 : node_to_fts5_query
        (NODE_OR (NODE_AND (NODE_TERM a) (NODE_TERM b)) (NODE_TERM c))
        = (if a.contains '*' = true then ['"'] ++ a ++ ['"'] else a) ++ " AND ".data ++
            (if b.contains '*' = true then ['"'] ++ b ++ ['"'] else b) ++ " OR ".data ++
            (if c.contains '*' = true then ['"'] ++ c ++ ['"'] else c) := by
      rw [hor, hand, hsa, hsb, hsc]
    have hne := (plain_term_ne a hpa).1
    have hq1 : to_fts5_query (a ++ " AND (".data ++ b ++ " OR ".data ++ c ++ ")".data) none
        = some (node_to_fts5_query
            (NODE_AND (NODE_TERM a) (NODE_OR (NODE_TERM b) (NODE_TERM c)))) := by
      rw [to_fts5_query_eq, hl1]
      obtain ⟨x, xs, rfl⟩ := List.exists_cons_of_ne_nil hne
      rfl
    have hq2 : to_fts5_query (a ++ " AND ".data ++ b ++ " OR ".data ++ c) none
        = some (node_to_fts5_query
            (NODE_OR (NODE_AND (NODE_TERM a) (NODE_TERM b)) (NODE_TERM c))) := by
      rw [to_fts5_query_eq, hl2]
      obtain ⟨x, xs, rfl⟩ := List.exists_cons_of_ne_nil hne
      rfl
    refine ⟨⟨_, tokenize_input_eq_lex _ _, ?_⟩, ⟨_, tokenize_input_eq_lex _ _, ?_⟩, ?_, ?_, ?_⟩
    · rw [hl1]
      rfl
    · rw [hl2]
      rfl
    · rw [hq1, hser1]
    · rw [hq2, hser2]
    · intro ha hb hc
      rw [hq1, hq2, hser1, hser2, ha, hb, hc]
      exact ⟨rfl, rfl⟩

theorem C26_fts5_loses_grouping_witness :
    (to_fts5_query ("cat".data ++ " AND (".data ++ "dog".data ++ " OR ".data
          ++ "bird".data ++ ")".data) none
        = some ("cat".data ++ " AND ".data ++ "dog".data ++ " OR ".data ++ "bird".data) ∧
      to_fts5_query ("cat".data ++ " AND ".data ++ "dog".data ++ " OR ".data
          ++ "bird".data) none
        = some ("cat".data ++ " AND ".data ++ "dog".data ++ " OR ".data ++ "bird".data)) ∧
    (∃ tokens, tokenize_input ("cat*".data ++ " AND (".data ++ "dog".data ++ " OR ".data
          ++ "bird".data ++ ")".data) none = some tokens ∧
        parse_expression tokens []
          = (some (NODE_AND (NODE_TERM "cat*".data)
              (NODE_OR (NODE_TERM "dog".data) (NODE_TERM "bird".data))), [])) ∧
    to_fts5_query ("cat*".data ++ " AND (".data ++ "dog".data ++ " OR ".data
          ++ "bird".data ++ ")".data) none
        = some ((if "cat*".data.contains '*' = true then ['"'] ++ "cat*".data ++ ['"']
              else "cat*".data) ++ " AND ".data ++
            (if "dog".data.contains '*' = true then ['"'] ++ "dog".data ++ ['"']
              else "dog".data) ++ " OR ".data ++
            (if "bird".data.contains '*' = true then ['"'] ++ "bird".data ++ ['"']
              else "bird".data)) :=
  ⟨(C26_fts5_loses_grouping.2 "cat".data "dog".data "bird".data (by decide) (by decide)
      (by decide)).2.2.2.2 (by decide) (by decide) (by decide),
   (C26_fts5_loses_grouping.2 "cat*".data "dog".data "bird".data (by decide) (by decide)
      (by decide)).1,
   (C26_fts5_loses_grouping.2 "cat*".data "dog".data "bird".data (by decide) (by decide)
      (by decide)).2.2.1⟩

/-- C28 as stated fails: the query made of a quoted single space is tokenized to one term
and parsed, and `to_tsquery` returns the empty string for it. -/
theorem C28_counterexample :
    tokenize_input ['"', ' ', '"'] none = some [⟨TOKEN_TERM, [' ']⟩, ⟨TOKEN_EOF, []⟩] ∧
    parse_expression [⟨TOKEN_TERM, [' ']⟩, ⟨TOKEN_EOF, []⟩] []
      = (some (NODE_TERM [' ']), []) ∧
    to_tsquery ['"', ' ', '"'] none = some [] := by
  decide

/-- C28 (amended): when a query (without rewrite function) has a token besides `TOKEN_EOF`
and its tokens parse, `to_tsquery` returns, and its output is empty exactly when the tree
is a single term whose phrase is made of whitespace and contains a space (a quoted
phrase of whitespace only); in every other case the output is not empty. -/
theorem C28_tsquery_empty_output (query : str) (tokens : List token_t) (ast : node_t)
    (e : str) (htok : tokenize_input query none = some tokens) (hlen : 1 < tokens.length)
    (hparse : parse_expression tokens [] = (some ast, e)) :
    ∃ out, to_tsquery query none = some out ∧
      (out = [] ↔ ∃ p, ast = NODE_TERM p ∧ (∀ c ∈ p, isspace c = true) ∧ ' ' ∈ p) := by
  rw [tokenize_input_eq_lex] at htok
  have htok := (Option.some.inj htok).symm
  subst htok
  have hq := isEmpty_false_of_lex_length none query hlen
  unfold parse_expression at hparse
  cases hp : parse_run (lex none query) with
  | error e0 => rw [hp] at hparse; simp at hparse
  | ok n =>
    rw [hp] at hparse
    simp only [Prod.mk.injEq, Option.some.injEq] at hparse
    have hn : n = ast := hparse.1
    subst hn
    refine ⟨node_to_tsquery n, ?_, ?_⟩
    · rw [to_tsquery_eq, hq, hp]
      simp only [Bool.false_eq_true, if_false]
      rw [if_neg (by omega)]
    · apply node_to_tsquery_eq_nil_iff
      intro p hpl
      rw [parse_run_leaves _ _ hp] at hpl
      obtain ⟨t, ht, hty, hv⟩ := term_values_mem _ p hpl
      rw [← hv]
      exact lex_none_terms query t ht hty

theorem C28_tsquery_empty_output_witness :
    ∃ out, to_tsquery "\" \t\" OR x".data none = some out ∧
      (out = [] ↔ ∃ p, NODE_OR (NODE_TERM " \t".data) (NODE_TERM "x".data) = NODE_TERM p ∧
        (∀ c ∈ p, isspace c = true) ∧ ' ' ∈ p) :=
  C28_tsquery_empty_output "\" \t\" OR x".data
    [⟨TOKEN_TERM, " \t".data⟩, ⟨TOKEN_OR, "OR".data⟩, ⟨TOKEN_TERM, "x".data⟩, ⟨TOKEN_EOF, []⟩]
    (NODE_OR (NODE_TERM " \t".data) (NODE_TERM "x".data)) [] (by decide) (by decide)
    (by decide)

end searchquery
